import Mathlib

/-
  Verification of the conjugate-prior inference engine of a Dirichlet Process
  Mixture Model library.

  The public surface is a family of conjugate prior/likelihood pairs
  (Normal-Inverse-Chi-Squared, Normal-Inverse-Gamma, Inverse-Gamma,
  Gaussian-mean-with-known-variance, Normal-Inverse-Wishart, Inverse-Wishart),
  each exposing density evaluation, single-point likelihood, joint likelihood,
  conjugate posterior update, predictive density and marginal evidence, plus a
  collapsed Gibbs assignment step that consumes these operations.

  The densities are embedded as exact real-valued functions; observation
  sequences are lists; hyperparameter records are immutable structures, and the
  posterior update is a pure function producing a new record.
-/

open Real MeasureTheory Set Matrix

noncomputable section

/-! ## Sufficient statistics of a scalar observation sequence -/

/-- Sum of the observations of a scalar data set. -/
def sum1 (D : List ℝ) : ℝ := D.sum

/-- Sum of the squared observations of a scalar data set. -/
def sum2 (D : List ℝ) : ℝ := (D.map (fun x => x ^ 2)).sum

/-- Sum of squared deviations of the observations from a fixed center `t`. -/
def ssq (t : ℝ) (D : List ℝ) : ℝ := (D.map (fun x => (x - t) ^ 2)).sum

@[simp] lemma sum1_nil : sum1 [] = 0 := rfl

@[simp] lemma sum1_cons (x : ℝ) (D : List ℝ) : sum1 (x :: D) = x + sum1 D := by
  simp [sum1]

@[simp] lemma sum2_nil : sum2 [] = 0 := rfl

@[simp] lemma sum2_cons (x : ℝ) (D : List ℝ) : sum2 (x :: D) = x ^ 2 + sum2 D := by
  simp [sum2]

@[simp] lemma ssq_nil (t : ℝ) : ssq t [] = 0 := rfl

@[simp] lemma ssq_cons (t x : ℝ) (D : List ℝ) :
    ssq t (x :: D) = (x - t) ^ 2 + ssq t D := by
  simp [ssq]

lemma ssq_eq (t : ℝ) (D : List ℝ) :
    ssq t D = sum2 D - 2 * t * sum1 D + (D.length : ℝ) * t ^ 2 := by
  induction D with
  | nil => simp
  | cons x D ih => simp [ih]; ring

lemma ssq_nonneg (t : ℝ) (D : List ℝ) : 0 ≤ ssq t D := by
  apply List.sum_nonneg
  intro y hy
  obtain ⟨x, _, rfl⟩ := List.mem_map.mp hy
  positivity

/-- Cauchy-Schwarz for the sufficient statistics:
the squared sum is at most `n` times the sum of squares. -/
lemma sq_sum1_le (D : List ℝ) : sum1 D ^ 2 ≤ (D.length : ℝ) * sum2 D := by
  induction D with
  | nil => simp
  | cons x D ih =>
      have h1 := ssq_nonneg x D
      rw [ssq_eq] at h1
      have h2 : (0 : ℝ) ≤ sum2 D := by
        have := ssq_nonneg 0 D
        rw [ssq_eq] at this
        simpa using this
      simp only [sum1_cons, sum2_cons, List.length_cons]
      push_cast
      nlinarith [sq_nonneg x, sq_nonneg (sum1 D)]

lemma sum1_perm {D D' : List ℝ} (h : D.Perm D') : sum1 D = sum1 D' := h.sum_eq

lemma sum2_perm {D D' : List ℝ} (h : D.Perm D') : sum2 D = sum2 D' :=
  (h.map (fun x => x ^ 2)).sum_eq

/-! ## The Normal-Inverse-Chi-Squared (NIX) variant

Modelled from the spec: the file `prior.py` declared by the package
initializer is not present in the source tree, so the NIX variant is modelled
from the specification of §4.1: a conjugate prior over a scalar
(mean, variance) pair, parameterized by `(mu_0, kappa_0, sigsqr_0, nu_0)`,
with density, single-point likelihood, product likelihood, conjugate posterior
update by the sufficient statistics of the data, Student-t predictive density,
closed-form marginal evidence, and the two marginal queries. -/

/-- Hyperparameters of the Normal-Inverse-Chi-Squared prior. -/
@[ext] structure NIXParams where
  mu_0 : ℝ
  kappa_0 : ℝ
  sigsqr_0 : ℝ
  nu_0 : ℝ

namespace NIX

/-- Modelled from the spec: hyperparameter validity for the NIX family
(positive precision-scaling, degrees of freedom, and scale). -/
def Valid (p : NIXParams) : Prop :=
  0 < p.kappa_0 ∧ 0 < p.nu_0 ∧ 0 < p.sigsqr_0

/-- Modelled from the spec: the NIX joint prior density over `(mu, var)`,
the product of a Normal density for `mu` (variance `var / kappa_0`) and a
scaled-inverse-chi-squared density for `var`. -/
def density (p : NIXParams) (mu var : ℝ) : ℝ :=
  (p.kappa_0 / (2 * π * var)) ^ ((1 : ℝ) / 2) *
    ((p.nu_0 * p.sigsqr_0 / 2) ^ (p.nu_0 / 2) / Gamma (p.nu_0 / 2)) *
    var ^ (-(p.nu_0 / 2 + 1)) *
    exp (-(p.nu_0 * p.sigsqr_0 + p.kappa_0 * (mu - p.mu_0) ^ 2) / (2 * var))

/-- Modelled from the spec: the Gaussian data-generating density of a single
observation given `(mu, var)`. -/
def like1 (mu var x : ℝ) : ℝ :=
  (2 * π * var) ^ (-(1 : ℝ) / 2) * exp (-(x - mu) ^ 2 / (2 * var))

/-- Modelled from the spec: the likelihood of an observation sequence is the
product of the single-point likelihoods. -/
def likelihood (mu var : ℝ) (D : List ℝ) : ℝ :=
  (D.map (like1 mu var)).prod

/-- Modelled from the spec: the conjugate posterior update of the NIX
hyperparameters by the sufficient statistics `(n, sum x, sum x^2)` of `D`. -/
def post (p : NIXParams) (D : List ℝ) : NIXParams where
  mu_0 := (p.kappa_0 * p.mu_0 + sum1 D) / (p.kappa_0 + D.length)
  kappa_0 := p.kappa_0 + D.length
  sigsqr_0 :=
    (p.nu_0 * p.sigsqr_0 + sum2 D + p.kappa_0 * p.mu_0 ^ 2 -
        (p.kappa_0 + D.length) *
          ((p.kappa_0 * p.mu_0 + sum1 D) / (p.kappa_0 + D.length)) ^ 2) /
      (p.nu_0 + D.length)
  nu_0 := p.nu_0 + D.length

/-- Modelled from the spec: the closed-form marginal evidence of `D`, the
ratio of posterior to prior normalizing constants times the accumulated
`(2 pi)` likelihood constants. -/
def evidence (p : NIXParams) (D : List ℝ) : ℝ :=
  Gamma ((post p D).nu_0 / 2) / Gamma (p.nu_0 / 2) *
    (p.kappa_0 / (post p D).kappa_0) ^ ((1 : ℝ) / 2) *
    ((p.nu_0 * p.sigsqr_0 / 2) ^ (p.nu_0 / 2) /
      ((post p D).nu_0 * (post p D).sigsqr_0 / 2) ^ ((post p D).nu_0 / 2)) *
    (2 * π) ^ (-(D.length : ℝ) / 2)

/-- Modelled from the spec: the prior predictive density of one new
observation, a Student-t density in closed form. -/
def pred (p : NIXParams) (x : ℝ) : ℝ :=
  Gamma ((p.nu_0 + 1) / 2) / Gamma (p.nu_0 / 2) *
    (p.kappa_0 / (p.kappa_0 + 1)) ^ ((1 : ℝ) / 2) *
    ((p.nu_0 * p.sigsqr_0 / 2) ^ (p.nu_0 / 2) /
      ((p.nu_0 * p.sigsqr_0 + p.kappa_0 * (x - p.mu_0) ^ 2 / (p.kappa_0 + 1)) / 2) ^
        ((p.nu_0 + 1) / 2)) *
    (2 * π) ^ (-(1 : ℝ) / 2)

/-- Modelled from the spec: the marginal density of the variance
sub-parameter, a scaled-inverse-chi-squared density. -/
def marginal_var (p : NIXParams) (var : ℝ) : ℝ :=
  ((p.nu_0 * p.sigsqr_0 / 2) ^ (p.nu_0 / 2) / Gamma (p.nu_0 / 2)) *
    var ^ (-(p.nu_0 / 2 + 1)) * exp (-(p.nu_0 * p.sigsqr_0) / (2 * var))

/-- Modelled from the spec: the marginal density of the mean sub-parameter,
a Student-t density. -/
def marginal_mu (p : NIXParams) (mu : ℝ) : ℝ :=
  (p.kappa_0 / (2 * π)) ^ ((1 : ℝ) / 2) *
    ((p.nu_0 * p.sigsqr_0 / 2) ^ (p.nu_0 / 2) / Gamma (p.nu_0 / 2)) *
    Gamma ((p.nu_0 + 1) / 2) *
    ((p.nu_0 * p.sigsqr_0 + p.kappa_0 * (mu - p.mu_0) ^ 2) / 2) ^ (-((p.nu_0 + 1) / 2))

@[simp] lemma post_kappa_X (p : NIXParams) (D : List ℝ) :
    (post p D).kappa_0 = p.kappa_0 + D.length := rfl

@[simp] lemma post_nu_X (p : NIXParams) (D : List ℝ) :
    (post p D).nu_0 = p.nu_0 + D.length := rfl

lemma post_mu_X (p : NIXParams) (D : List ℝ) :
    (post p D).mu_0 = (p.kappa_0 * p.mu_0 + sum1 D) / (p.kappa_0 + D.length) := rfl

/-- The posterior degrees-of-freedom-scale product in sufficient-statistic form. -/
lemma post_nu_sigsqr (p : NIXParams) (D : List ℝ) (hp : Valid p) :
    (post p D).nu_0 * (post p D).sigsqr_0 =
      p.nu_0 * p.sigsqr_0 + sum2 D + p.kappa_0 * p.mu_0 ^ 2 -
        (p.kappa_0 + D.length) * (post p D).mu_0 ^ 2 := by
  obtain ⟨hk, hn, hs⟩ := hp
  have hnu : (0 : ℝ) < p.nu_0 + D.length := by positivity
  rw [post_mu_X]
  show (p.nu_0 + D.length) * (_ / (p.nu_0 + D.length)) = _
  field_simp
  ring

end NIX

/-! ## Logarithmic bookkeeping helpers for products of positive factors -/

lemma eq_of_log_eq {a b : ℝ} (ha : 0 < a) (hb : 0 < b) (h : log a = log b) : a = b := by
  rw [← exp_log ha, ← exp_log hb, h]

lemma log_mul' {a b : ℝ} (ha : 0 < a) (hb : 0 < b) : log (a * b) = log a + log b :=
  Real.log_mul ha.ne' hb.ne'

lemma log_div' {a b : ℝ} (ha : 0 < a) (hb : 0 < b) : log (a / b) = log a - log b :=
  Real.log_div ha.ne' hb.ne'

namespace NIX

lemma post_sigsqr_mul_pos {p : NIXParams} (hp : Valid p) (D : List ℝ) :
    0 < (post p D).nu_0 * (post p D).sigsqr_0 := by
  obtain ⟨hk, hn, hs⟩ := hp
  have hkn : (0 : ℝ) < p.kappa_0 + D.length := by positivity
  have hA : (p.kappa_0 + (D.length : ℝ)) *
        ((p.kappa_0 * p.mu_0 + sum1 D) / (p.kappa_0 + (D.length : ℝ))) ^ 2 =
      (p.kappa_0 * p.mu_0 + sum1 D) ^ 2 / (p.kappa_0 + (D.length : ℝ)) := by
    field_simp; ring
  rw [post_nu_sigsqr p D ⟨hk, hn, hs⟩, post_mu_X, hA]
  have h1 : 0 ≤ sum2 D - 2 * p.mu_0 * sum1 D + (D.length : ℝ) * p.mu_0 ^ 2 := by
    have := ssq_nonneg p.mu_0 D; rwa [ssq_eq] at this
  have h2 := sq_sum1_le D
  have h3 : (p.kappa_0 * p.mu_0 + sum1 D) ^ 2 / (p.kappa_0 + (D.length : ℝ)) ≤
      sum2 D + p.kappa_0 * p.mu_0 ^ 2 := by
    rw [div_le_iff₀ hkn]
    nlinarith [mul_nonneg hk.le h1]
  nlinarith [mul_pos hn hs]

lemma valid_post_X {p : NIXParams} (hp : Valid p) (D : List ℝ) : Valid (post p D) := by
  have hmul := post_sigsqr_mul_pos hp D
  obtain ⟨hk, hn, hs⟩ := hp
  have hnu : (0 : ℝ) < p.nu_0 + D.length := by positivity
  refine ⟨?_, by rw [post_nu_X]; exact hnu, ?_⟩
  · rw [post_kappa_X]; positivity
  · rw [post_nu_X] at hmul
    by_contra h
    push_neg at h
    nlinarith

/-- Completing the square: the prior exponent plus the likelihood exponent
equals the posterior exponent. -/
lemma exponent_identity_X (p : NIXParams) (D : List ℝ) (mu : ℝ) (hp : Valid p) :
    p.nu_0 * p.sigsqr_0 + p.kappa_0 * (mu - p.mu_0) ^ 2 + ssq mu D =
      (post p D).nu_0 * (post p D).sigsqr_0 +
        (post p D).kappa_0 * (mu - (post p D).mu_0) ^ 2 := by
  have hk := hp.1
  have hkn : (0 : ℝ) < p.kappa_0 + D.length := by positivity
  rw [post_nu_sigsqr p D hp, post_mu_X, post_kappa_X, ssq_eq]
  field_simp
  ring

/-- The joint likelihood of a data set collapses to a closed form in the
sufficient statistics. -/
lemma likelihood_eq_X (mu var : ℝ) (hv : 0 < var) (D : List ℝ) :
    likelihood mu var D =
      (2 * π * var) ^ (-(D.length : ℝ) / 2) * exp (-(ssq mu D) / (2 * var)) := by
  induction D with
  | nil => simp [likelihood]
  | cons x D ih =>
      have h2 : (0 : ℝ) < 2 * π * var := by positivity
      have hl : likelihood mu var (x :: D) = like1 mu var x * likelihood mu var D := by
        simp [likelihood]
      have e1 : (-(((x :: D).length : ℝ)) / 2) = (-(1 : ℝ) / 2) + (-(D.length : ℝ) / 2) := by
        push_cast [List.length_cons]; ring
      have e2 : (-(ssq mu (x :: D)) / (2 * var)) =
          (-(x - mu) ^ 2 / (2 * var)) + (-(ssq mu D) / (2 * var)) := by
        rw [ssq_cons]; ring
      rw [hl, ih, e1, e2, Real.rpow_add h2, Real.exp_add, like1]
      ring

lemma likelihood_pos_X (mu : ℝ) {var : ℝ} (hv : 0 < var) (D : List ℝ) :
    0 < likelihood mu var D := by
  rw [likelihood_eq_X mu var hv]
  positivity

end NIX

lemma sum1_append (D1 D2 : List ℝ) : sum1 (D1 ++ D2) = sum1 D1 + sum1 D2 := by
  simp [sum1]

lemma sum2_append (D1 D2 : List ℝ) : sum2 (D1 ++ D2) = sum2 D1 + sum2 D2 := by
  simp [sum2]

namespace NIX

/-- Conjugate updates compose: updating by `D1` then `D2` is updating by
`D1 ++ D2`. -/
lemma post_post_X {p : NIXParams} (hp : Valid p) (D1 D2 : List ℝ) :
    post (post p D1) D2 = post p (D1 ++ D2) := by
  obtain ⟨hk, hn, hs⟩ := hp
  have h1 : (0 : ℝ) < p.kappa_0 + D1.length := by positivity
  have h2 : (0 : ℝ) < p.kappa_0 + D1.length + D2.length := by positivity
  have h3 : (0 : ℝ) < p.nu_0 + D1.length := by positivity
  have h4 : (0 : ℝ) < p.nu_0 + D1.length + D2.length := by positivity
  ext
  · simp only [post, sum1_append, sum2_append, List.length_append]
    push_cast
    field_simp
    ring
  · simp only [post, List.length_append]
    push_cast
    ring
  · simp only [post, sum1_append, sum2_append, List.length_append]
    push_cast
    field_simp
    ring
  · simp only [post, List.length_append]
    push_cast
    ring

/-- Updating by the empty data set is the identity. -/
lemma post_nil_X {p : NIXParams} (hp : Valid p) : post p [] = p := by
  obtain ⟨hk, hn, hs⟩ := hp
  ext
  · simp only [post, sum1_nil, List.length_nil, Nat.cast_zero, add_zero]
    field_simp
  · simp [post]
  · simp only [post, sum1_nil, sum2_nil, List.length_nil, Nat.cast_zero, add_zero]
    field_simp
    try ring
  · simp [post]

lemma post_perm_X (p : NIXParams) {D D' : List ℝ} (h : D.Perm D') :
    post p D = post p D' := by
  ext <;> simp [post, sum1_perm h, sum2_perm h, h.length_eq]

/-- The posterior degrees-of-freedom-scale product after a single
observation, in rank-one-update form. -/
lemma post_single_nu_sigsqr {p : NIXParams} (hp : Valid p) (x : ℝ) :
    (post p [x]).nu_0 * (post p [x]).sigsqr_0 =
      p.nu_0 * p.sigsqr_0 + p.kappa_0 * (x - p.mu_0) ^ 2 / (p.kappa_0 + 1) := by
  have hk := hp.1
  have h1 : (0 : ℝ) < p.kappa_0 + 1 := by positivity
  rw [post_nu_sigsqr p [x] hp, post_mu_X]
  simp only [sum1_cons, sum1_nil, sum2_cons, sum2_nil, List.length_cons, List.length_nil,
    Nat.cast_one, Nat.cast_zero, add_zero]
  field_simp
  ring

end NIX

namespace NIX

/-- Log-expansion of the collapsed NIX likelihood. -/
lemma log_likelihood_X (mu : ℝ) {var : ℝ} (hv : 0 < var) (D : List ℝ) :
    log (likelihood mu var D) =
      -(((D.length : ℝ)) / 2) * log (2 * π) - ((D.length : ℝ) / 2) * log var -
        ssq mu D / (2 * var) := by
  rw [likelihood_eq_X mu var hv,
    log_mul' (by positivity) (by positivity),
    Real.log_exp,
    Real.log_rpow (by positivity),
    log_mul' (by positivity) hv]
  ring

/-- The joint heavy laws of the NIX family: the Bayes master identity,
evidence positivity, predictive-evidence agreement on singletons, the
evidence recursion, the sequential chain, and permutation invariance. -/
lemma laws_X :
    (∀ {p : NIXParams} (hp : Valid p) (D : List ℝ) (mu : ℝ) {var : ℝ} (hv : 0 < var), density (post p D) mu var = density p mu var * likelihood mu var D / evidence p D) ∧
    (∀ {p : NIXParams} (hp : Valid p) (D : List ℝ), 0 < evidence p D) ∧
    (∀ {p : NIXParams} (hp : Valid p) (x : ℝ), pred p x = evidence p [x]) ∧
    (∀ {p : NIXParams} (hp : Valid p) (x : ℝ) (T : List ℝ), evidence p (x :: T) = pred p x * evidence (post p [x]) T) ∧
    (∀ {p : NIXParams} (hp : Valid p) (D : List ℝ), evidence p D = ∏ i : Fin D.length, pred (post p (D.take i.1)) (D.get i)) ∧
    (∀ (p : NIXParams) {D D' : List ℝ} (h : D.Perm D'), evidence p D = evidence p D') := by
  have density_pos_X : ∀ {p : NIXParams} (hp : Valid p) (mu : ℝ) {var : ℝ} (hv : 0 < var), 0 < density p mu var := by
    intro p hp mu var hv
    obtain ⟨hk, hn, hs⟩ := hp
    delta density
    positivity
  have log_density_X : ∀ {p : NIXParams} (hp : Valid p) (mu : ℝ) {var : ℝ} (hv : 0 < var), log (density p mu var) =
      (1 / 2) * log p.kappa_0 - (1 / 2) * log (2 * π) +
        (p.nu_0 / 2) * log (p.nu_0 * p.sigsqr_0 / 2) - log (Gamma (p.nu_0 / 2)) -
        ((p.nu_0 + 3) / 2) * log var -
        (p.nu_0 * p.sigsqr_0 + p.kappa_0 * (mu - p.mu_0) ^ 2) / (2 * var) := by
    intro p hp mu var hv
    obtain ⟨hk, hn, hs⟩ := hp
    delta density
    rw [
      log_mul' (by positivity) (by positivity),
      log_mul' (by positivity) (by positivity),
      log_mul' (by positivity) (by positivity),
      Real.log_exp,
      Real.log_rpow (by positivity),
      Real.log_rpow hv,
      log_div' (by positivity) (by positivity),
      log_div' (by positivity) (by positivity),
      Real.log_rpow (by positivity),
      log_mul' (by positivity) hv]
    ring
  have log_likelihood_X : ∀ (mu : ℝ) {var : ℝ} (hv : 0 < var) (D : List ℝ), log (likelihood mu var D) =
      -(((D.length : ℝ)) / 2) * log (2 * π) - ((D.length : ℝ) / 2) * log var -
        ssq mu D / (2 * var) := by
    intro mu var hv D
    rw [likelihood_eq_X mu var hv,
      log_mul' (by positivity) (by positivity),
      Real.log_exp,
      Real.log_rpow (by positivity),
      log_mul' (by positivity) hv]
    ring
  have log_evidence_X : ∀ {p : NIXParams} (hp : Valid p) (D : List ℝ), log (evidence p D) =
      log (Gamma ((post p D).nu_0 / 2)) - log (Gamma (p.nu_0 / 2)) +
        (1 / 2) * log p.kappa_0 - (1 / 2) * log (post p D).kappa_0 +
        (p.nu_0 / 2) * log (p.nu_0 * p.sigsqr_0 / 2) -
        ((post p D).nu_0 / 2) * log ((post p D).nu_0 * (post p D).sigsqr_0 / 2) -
        ((D.length : ℝ) / 2) * log (2 * π) := by
    intro p hp D
    have h1 := post_sigsqr_mul_pos hp D
    have h2 := (valid_post_X hp D).1
    have h3 := (valid_post_X hp D).2.1
    obtain ⟨hk, hn, hs⟩ := hp
    delta evidence
    rw [
      log_mul' (by positivity) (by positivity),
      log_mul' (by positivity) (by positivity),
      log_mul' (by positivity) (by positivity),
      log_div' (by positivity) (by positivity),
      Real.log_rpow (by positivity),
      log_div' (by positivity) (by positivity),
      log_div' (by positivity) (by positivity),
      Real.log_rpow (by positivity),
      Real.log_rpow (by positivity),
      Real.log_rpow (by positivity)]
    ring
  have evidence_pos_X : ∀ {p : NIXParams} (hp : Valid p) (D : List ℝ), 0 < evidence p D := by
    intro p hp D
    have h1 := post_sigsqr_mul_pos hp D
    have h2 := (valid_post_X hp D).1
    have h3 := (valid_post_X hp D).2.1
    have h4 := (valid_post_X hp D).2.2
    obtain ⟨hk, hn, hs⟩ := hp
    delta evidence
    positivity
  have master_X : ∀ {p : NIXParams} (hp : Valid p) (D : List ℝ) (mu : ℝ) {var : ℝ}
    (hv : 0 < var), density (post p D) mu var = density p mu var * likelihood mu var D / evidence p D := by
    intro p hp D mu var hv
    have hd := density_pos_X hp mu hv
    have hl := likelihood_pos_X mu hv D
    have he := evidence_pos_X hp D
    apply eq_of_log_eq (density_pos_X (valid_post_X hp D) mu hv)
      (div_pos (mul_pos hd hl) he)
    rw [log_div' (mul_pos hd hl) he,
      log_mul' hd hl,
      log_density_X (valid_post_X hp D) mu hv,
      log_density_X hp mu hv,
      log_likelihood_X mu hv D,
      log_evidence_X hp D,
      ← exponent_identity_X p D mu hp]
    simp only [post_kappa_X, post_nu_X]
    ring
  have evidence_nil_X : ∀ {p : NIXParams} (hp : Valid p), evidence p [] = 1 := by
    intro p hp
    have hk := hp.1
    have hn := hp.2.1
    have hs := hp.2.2
    have hg : Gamma (p.nu_0 / 2) ≠ 0 := by positivity
    delta evidence
    rw [ post_nil_X hp]
    simp only [List.length_nil, Nat.cast_zero, neg_zero, zero_div, Real.rpow_zero]
    rw [div_self hg, div_self hk.ne']
    rw [div_self (by positivity : ((p.nu_0 * p.sigsqr_0 / 2 : ℝ)) ^ (p.nu_0 / 2) ≠ 0)]
    simp [Real.one_rpow]
  have pred_eq_evidence_single_X : ∀ {p : NIXParams} (hp : Valid p) (x : ℝ), pred p x = evidence p [x] := by
    intro p hp x
    have hk := hp.1
    have hn := hp.2.1
    have hs := hp.2.2
    delta pred evidence
    rw [ post_single_nu_sigsqr hp, post_kappa_X, post_nu_X]
    simp only [List.length_cons, List.length_nil, Nat.cast_one, Nat.cast_zero, add_zero]
    norm_num
  have evidence_cons_X : ∀ {p : NIXParams} (hp : Valid p) (x : ℝ) (T : List ℝ), evidence p (x :: T) = pred p x * evidence (post p [x]) T := by
    intro p hp x T
    rw [pred_eq_evidence_single_X hp x]
    have h1 := evidence_pos_X hp (x :: T)
    have h2 := evidence_pos_X hp [x]
    have h3 := evidence_pos_X (valid_post_X hp [x]) T
    apply eq_of_log_eq h1 (mul_pos h2 h3)
    rw [log_mul' h2 h3, log_evidence_X hp (x :: T), log_evidence_X hp [x],
      log_evidence_X (valid_post_X hp [x]) T,
      post_post_X hp [x] T]
    simp only [List.cons_append, List.nil_append, post_kappa_X, post_nu_X, List.length_cons,
      List.length_nil]
    push_cast
    ring
  have evidence_perm_X : ∀ (p : NIXParams) {D D' : List ℝ} (h : D.Perm D'), evidence p D = evidence p D' := by
    intro p D D' h
    delta evidence
    rw [ post_perm_X p h, h.length_eq]
  have evidence_chain_X : ∀ {p : NIXParams} (hp : Valid p) (D : List ℝ), evidence p D = ∏ i : Fin D.length, pred (post p (D.take i.1)) (D.get i) := by
    intro p hp D
    induction D generalizing p with
    | nil => simp [evidence_nil_X hp]
    | cons x T ih =>
        rw [evidence_cons_X hp x T, ih (valid_post_X hp [x])]
        simp only [List.length_cons]
        rw [Fin.prod_univ_succ]
        congr 1
        · simp [post_nil_X hp]
        · apply Finset.prod_congr rfl
          intro i _
          rw [post_post_X hp [x] (T.take i.1)]
          simp only [List.cons_append, List.nil_append, Fin.val_succ, List.take_succ_cons]
          rfl
  exact ⟨master_X, evidence_pos_X, pred_eq_evidence_single_X, evidence_cons_X, evidence_chain_X, evidence_perm_X⟩

end NIX

/-! ## The Normal-Inverse-Gamma (NIG) variant

Modelled from the spec: the scalar (mean, variance) conjugate prior in its
Inverse-Gamma scaling, parameterized by `(m_0, V_0, a_0, b_0)`. -/

/-- Hyperparameters of the Normal-Inverse-Gamma prior. -/
@[ext] structure NIGParams where
  m_0 : ℝ
  V_0 : ℝ
  a_0 : ℝ
  b_0 : ℝ

namespace NIG

/-- Modelled from the spec: hyperparameter validity for the NIG family. -/
def Valid (q : NIGParams) : Prop := 0 < q.V_0 ∧ 0 < q.a_0 ∧ 0 < q.b_0

/-- Modelled from the spec: the NIG joint prior density over `(mu, var)`. -/
def density (q : NIGParams) (mu var : ℝ) : ℝ :=
  (1 / (2 * π * var * q.V_0)) ^ ((1 : ℝ) / 2) *
    (q.b_0 ^ q.a_0 / Gamma q.a_0) *
    var ^ (-(q.a_0 + 1)) *
    exp (-(2 * q.b_0 + (mu - q.m_0) ^ 2 / q.V_0) / (2 * var))

/-- Modelled from the spec: the Gaussian single-observation likelihood. -/
def like1 (mu var x : ℝ) : ℝ :=
  (2 * π * var) ^ (-(1 : ℝ) / 2) * exp (-(x - mu) ^ 2 / (2 * var))

/-- Modelled from the spec: the product likelihood of a data set. -/
def likelihood (mu var : ℝ) (D : List ℝ) : ℝ := (D.map (like1 mu var)).prod

/-- Modelled from the spec: the conjugate posterior update of the NIG
hyperparameters by the sufficient statistics of `D`. -/
def post (q : NIGParams) (D : List ℝ) : NIGParams where
  m_0 := (q.m_0 + q.V_0 * sum1 D) / (1 + D.length * q.V_0)
  V_0 := q.V_0 / (1 + D.length * q.V_0)
  a_0 := q.a_0 + D.length / 2
  b_0 := q.b_0 + (sum2 D + q.m_0 ^ 2 / q.V_0 -
      ((q.m_0 + q.V_0 * sum1 D) / (1 + D.length * q.V_0)) ^ 2 /
        (q.V_0 / (1 + D.length * q.V_0))) / 2

/-- Modelled from the spec: the closed-form marginal evidence of `D`. -/
def evidence (q : NIGParams) (D : List ℝ) : ℝ :=
  Gamma (post q D).a_0 / Gamma q.a_0 *
    ((post q D).V_0 / q.V_0) ^ ((1 : ℝ) / 2) *
    (q.b_0 ^ q.a_0 / (post q D).b_0 ^ (post q D).a_0) *
    (2 * π) ^ (-(D.length : ℝ) / 2)

/-- Modelled from the spec: the Student-t prior predictive density. -/
def pred (q : NIGParams) (x : ℝ) : ℝ :=
  Gamma (q.a_0 + 1 / 2) / Gamma q.a_0 *
    (1 / (1 + q.V_0)) ^ ((1 : ℝ) / 2) *
    (q.b_0 ^ q.a_0 /
      (q.b_0 + (x - q.m_0) ^ 2 / (2 * (1 + q.V_0))) ^ (q.a_0 + 1 / 2)) *
    (2 * π) ^ (-(1 : ℝ) / 2)

/-- Modelled from the spec: the marginal density of the variance
sub-parameter, an Inverse-Gamma density. -/
def marginal_var (q : NIGParams) (var : ℝ) : ℝ :=
  q.b_0 ^ q.a_0 / Gamma q.a_0 * var ^ (-(q.a_0 + 1)) * exp (-q.b_0 / var)

/-- Modelled from the spec: the marginal density of the mean sub-parameter,
a Student-t density. -/
def marginal_mu (q : NIGParams) (mu : ℝ) : ℝ :=
  (1 / (2 * π * q.V_0)) ^ ((1 : ℝ) / 2) * (q.b_0 ^ q.a_0 / Gamma q.a_0) *
    Gamma (q.a_0 + 1 / 2) *
    (q.b_0 + (mu - q.m_0) ^ 2 / (2 * q.V_0)) ^ (-(q.a_0 + 1 / 2))

/-- The fixed reparameterization into the NIX scaling. -/
def toNIX (q : NIGParams) : NIXParams where
  mu_0 := q.m_0
  kappa_0 := 1 / q.V_0
  sigsqr_0 := q.b_0 / q.a_0
  nu_0 := 2 * q.a_0

@[simp] lemma toNIX_mu (q : NIGParams) : (toNIX q).mu_0 = q.m_0 := rfl

@[simp] lemma toNIX_kappa (q : NIGParams) : (toNIX q).kappa_0 = 1 / q.V_0 := rfl

@[simp] lemma toNIX_sigsqr (q : NIGParams) : (toNIX q).sigsqr_0 = q.b_0 / q.a_0 := rfl

@[simp] lemma toNIX_nu (q : NIGParams) : (toNIX q).nu_0 = 2 * q.a_0 := rfl

lemma toNIX_valid {q : NIGParams} (hq : Valid q) : NIX.Valid (toNIX q) := by
  obtain ⟨hV, ha, hb⟩ := hq
  exact ⟨by simp; positivity, by simp; positivity, by simp; positivity⟩

/-- The NIG and NIX single-observation likelihoods coincide. -/
lemma like1_eq (mu var x : ℝ) : like1 mu var x = NIX.like1 mu var x := rfl

lemma likelihood_eq_NIX_G (mu var : ℝ) (D : List ℝ) :
    likelihood mu var D = NIX.likelihood mu var D := rfl

/-- The reparameterization commutes with the conjugate posterior update. -/
lemma post_corr {q : NIGParams} (hq : Valid q) (D : List ℝ) :
    toNIX (post q D) = NIX.post (toNIX q) D := by
  obtain ⟨hV, ha, hb⟩ := hq
  have h1 : (0 : ℝ) < 1 + D.length * q.V_0 := by positivity
  ext
  · simp only [toNIX_mu, NIX.post_mu_X, toNIX_kappa]
    rw [show (post q D).m_0 = (q.m_0 + q.V_0 * sum1 D) / (1 + D.length * q.V_0) from rfl]
    field_simp
    ring
  · simp only [toNIX_kappa, NIX.post_kappa_X]
    rw [show (post q D).V_0 = q.V_0 / (1 + D.length * q.V_0) from rfl]
    field_simp
  · simp only [toNIX_sigsqr]
    rw [show (post q D).b_0 = q.b_0 + (sum2 D + q.m_0 ^ 2 / q.V_0 -
        ((q.m_0 + q.V_0 * sum1 D) / (1 + D.length * q.V_0)) ^ 2 /
          (q.V_0 / (1 + D.length * q.V_0))) / 2 from rfl,
      show (post q D).a_0 = q.a_0 + D.length / 2 from rfl,
      show (NIX.post (toNIX q) D).sigsqr_0 = ((toNIX q).nu_0 * (toNIX q).sigsqr_0 + sum2 D
          + (toNIX q).kappa_0 * (toNIX q).mu_0 ^ 2 -
          ((toNIX q).kappa_0 + D.length) *
            (((toNIX q).kappa_0 * (toNIX q).mu_0 + sum1 D) /
              ((toNIX q).kappa_0 + D.length)) ^ 2) / ((toNIX q).nu_0 + D.length) from rfl]
    simp only [toNIX_mu, toNIX_kappa, toNIX_sigsqr, toNIX_nu]
    have h2 : (0 : ℝ) < 1 / q.V_0 + D.length := by positivity
    have h3 : (0 : ℝ) < 2 * q.a_0 + D.length := by positivity
    have h4 : (0 : ℝ) < q.a_0 + D.length / 2 := by positivity
    field_simp
    ring
  · simp only [toNIX_nu, NIX.post_nu_X]
    rw [show (post q D).a_0 = q.a_0 + D.length / 2 from rfl]
    ring

end NIG

namespace NIG

lemma post_V_pos {q : NIGParams} (hq : Valid q) (D : List ℝ) : 0 < (post q D).V_0 := by
  obtain ⟨hV, ha, hb⟩ := hq
  rw [show (post q D).V_0 = q.V_0 / (1 + D.length * q.V_0) from rfl]
  positivity

lemma post_a_pos {q : NIGParams} (hq : Valid q) (D : List ℝ) : 0 < (post q D).a_0 := by
  obtain ⟨hV, ha, hb⟩ := hq
  rw [show (post q D).a_0 = q.a_0 + D.length / 2 from rfl]
  positivity

lemma post_b_pos {q : NIGParams} (hq : Valid q) (D : List ℝ) : 0 < (post q D).b_0 := by
  have h := (NIX.valid_post_X (toNIX_valid hq) D).2.2
  rw [← post_corr hq D] at h
  rw [toNIX_sigsqr] at h
  rcases div_pos_iff.mp h with ⟨h1, _⟩ | ⟨_, h2⟩
  · exact h1
  · linarith [post_a_pos hq D]

lemma valid_post_G {q : NIGParams} (hq : Valid q) (D : List ℝ) : Valid (post q D) :=
  ⟨post_V_pos hq D, post_a_pos hq D, post_b_pos hq D⟩

end NIG

namespace NIG

lemma post_perm_G (q : NIGParams) {D D' : List ℝ} (h : D.Perm D') :
    post q D = post q D' := by
  ext <;> simp [post, sum1_perm h, sum2_perm h, h.length_eq]

/-- The NIX-reparameterization bridge for the NIG family: density, evidence
and predictive all agree with their NIX counterparts under `toNIX`. -/
lemma bridge :
    (∀ {q : NIGParams} (hq : Valid q) (mu var : ℝ), density q mu var = NIX.density (toNIX q) mu var) ∧
    (∀ {q : NIGParams} (hq : Valid q) (D : List ℝ), evidence q D = NIX.evidence (toNIX q) D) ∧
    (∀ {q : NIGParams} (hq : Valid q) (x : ℝ), pred q x = NIX.pred (toNIX q) x) := by
  have density_eq : ∀ {q : NIGParams} (hq : Valid q) (mu var : ℝ), density q mu var = NIX.density (toNIX q) mu var := by
    intro q hq mu var
    obtain ⟨hV, ha, hb⟩ := hq
    delta NIX.density
    simp only [toNIX_mu, toNIX_kappa, toNIX_sigsqr, toNIX_nu]
    rw [show (2 * q.a_0) / 2 = q.a_0 by ring,
      show 2 * q.a_0 * (q.b_0 / q.a_0) / 2 = q.b_0 by field_simp; ring,
      show 1 / q.V_0 / (2 * π * var) = 1 / (2 * π * var * q.V_0) by
        rw [div_div]; congr 1; ring,
      show 2 * q.a_0 * (q.b_0 / q.a_0) + 1 / q.V_0 * (mu - q.m_0) ^ 2 =
          2 * q.b_0 + (mu - q.m_0) ^ 2 / q.V_0 by field_simp; ring,
      density]
  have evidence_eq : ∀ {q : NIGParams} (hq : Valid q) (D : List ℝ), evidence q D = NIX.evidence (toNIX q) D := by
    intro q hq D
    have hV := hq.1
    have ha := hq.2.1
    have haN := post_a_pos hq D
    have hVN := post_V_pos hq D
    delta NIX.evidence
    rw [ ← post_corr hq D]
    simp only [toNIX_mu, toNIX_kappa, toNIX_sigsqr, toNIX_nu, NIX.post_kappa_X]
    rw [show 2 * (post q D).a_0 / 2 = (post q D).a_0 by ring,
      show 2 * q.a_0 / 2 = q.a_0 by ring,
      show 2 * q.a_0 * (q.b_0 / q.a_0) / 2 = q.b_0 by field_simp; ring,
      show 2 * (post q D).a_0 * ((post q D).b_0 / (post q D).a_0) / 2 = (post q D).b_0 by
        field_simp; ring,
      show 1 / q.V_0 / (1 / (post q D).V_0) = (post q D).V_0 / q.V_0 by
        field_simp]
    delta evidence
    rfl
  have pred_eq : ∀ {q : NIGParams} (hq : Valid q) (x : ℝ), pred q x = NIX.pred (toNIX q) x := by
    intro q hq x
    have hV := hq.1
    have ha := hq.2.1
    have h1 : (0 : ℝ) < 1 + q.V_0 := by positivity
    delta NIX.pred
    simp only [toNIX_mu, toNIX_kappa, toNIX_sigsqr, toNIX_nu]
    rw [show (2 * q.a_0 + 1) / 2 = q.a_0 + 1 / 2 by ring,
      show 2 * q.a_0 / 2 = q.a_0 by ring,
      show 2 * q.a_0 * (q.b_0 / q.a_0) / 2 = q.b_0 by field_simp; ring,
      show 1 / q.V_0 / (1 / q.V_0 + 1) = 1 / (1 + q.V_0) by
        rw [div_eq_div_iff (by positivity) h1.ne']
        field_simp,
      show (2 * q.a_0 * (q.b_0 / q.a_0) + 1 / q.V_0 * (x - q.m_0) ^ 2 / (1 / q.V_0 + 1)) / 2 =
          q.b_0 + (x - q.m_0) ^ 2 / (2 * (1 + q.V_0)) by
        field_simp
        ring]
    delta pred
    rfl
  exact ⟨density_eq, evidence_eq, pred_eq⟩

/-- The joint heavy laws of the NIG family, transported through the NIX
reparameterization: Bayes master identity, evidence positivity,
predictive-evidence agreement on singletons, evidence recursion, sequential
chain, and permutation invariance. -/
lemma laws_G :
    (∀ {q : NIGParams} (hq : Valid q) (D : List ℝ) (mu : ℝ) {var : ℝ} (hv : 0 < var), density (post q D) mu var = density q mu var * likelihood mu var D / evidence q D) ∧
    (∀ {q : NIGParams} (hq : Valid q) (D : List ℝ), 0 < evidence q D) ∧
    (∀ {q : NIGParams} (hq : Valid q) (x : ℝ), pred q x = evidence q [x]) ∧
    (∀ {q : NIGParams} (hq : Valid q) (x : ℝ) (T : List ℝ), evidence q (x :: T) = pred q x * evidence (post q [x]) T) ∧
    (∀ {q : NIGParams} (hq : Valid q) (D : List ℝ), evidence q D = ∏ i : Fin D.length, pred (post q (D.take i.1)) (D.get i)) ∧
    (∀ (q : NIGParams) {D D' : List ℝ} (h : D.Perm D'), evidence q D = evidence q D') := by
  have master_G : ∀ {q : NIGParams} (hq : Valid q) (D : List ℝ) (mu : ℝ) {var : ℝ}
    (hv : 0 < var), density (post q D) mu var = density q mu var * likelihood mu var D / evidence q D := by
    intro q hq D mu var hv
    rw [bridge.1 (valid_post_G hq D), bridge.1 hq, likelihood_eq_NIX_G, bridge.2.1 hq,
      post_corr hq D]
    exact NIX.laws_X.1 (toNIX_valid hq) D mu hv
  have evidence_pos_G : ∀ {q : NIGParams} (hq : Valid q) (D : List ℝ), 0 < evidence q D := by
    intro q hq D
    rw [bridge.2.1 hq]
    exact NIX.laws_X.2.1 (toNIX_valid hq) D
  have pred_eq_evidence_single_G : ∀ {q : NIGParams} (hq : Valid q) (x : ℝ), pred q x = evidence q [x] := by
    intro q hq x
    rw [bridge.2.2 hq, bridge.2.1 hq]
    exact NIX.laws_X.2.2.1 (toNIX_valid hq) x
  have evidence_cons_G : ∀ {q : NIGParams} (hq : Valid q) (x : ℝ) (T : List ℝ), evidence q (x :: T) = pred q x * evidence (post q [x]) T := by
    intro q hq x T
    rw [bridge.2.1 hq, bridge.2.1 (valid_post_G hq [x]), bridge.2.2 hq, post_corr hq [x]]
    exact NIX.laws_X.2.2.2.1 (toNIX_valid hq) x T
  have evidence_chain_G : ∀ {q : NIGParams} (hq : Valid q) (D : List ℝ), evidence q D = ∏ i : Fin D.length, pred (post q (D.take i.1)) (D.get i) := by
    intro q hq D
    rw [bridge.2.1 hq, NIX.laws_X.2.2.2.2.1 (toNIX_valid hq)]
    apply Finset.prod_congr rfl
    intro i _
    rw [← post_corr hq (D.take i.1), ← bridge.2.2 (valid_post_G hq (D.take i.1))]
  have evidence_perm_G : ∀ (q : NIGParams) {D D' : List ℝ} (h : D.Perm D'), evidence q D = evidence q D' := by
    intro q D D' h
    delta evidence
    rw [ post_perm_G q h, h.length_eq]
  exact ⟨master_G, evidence_pos_G, pred_eq_evidence_single_G, evidence_cons_G, evidence_chain_G, evidence_perm_G⟩

end NIG

lemma ssq_append (t : ℝ) (D1 D2 : List ℝ) :
    ssq t (D1 ++ D2) = ssq t D1 + ssq t D2 := by
  simp [ssq]

lemma ssq_perm (t : ℝ) {D D' : List ℝ} (h : D.Perm D') : ssq t D = ssq t D' :=
  (h.map (fun x => (x - t) ^ 2)).sum_eq

/-! ## The Inverse-Gamma (InvGamma) variant

Modelled from the spec: known mean, unknown variance. The shape-rate
parameterization is fixed by the behaviour exercised in the test suite: the
mean of the parameter density is `1 / (beta * (alpha - 1))`. -/

/-- Hyperparameters of the Inverse-Gamma prior over a variance, with known
observation mean `mu`. -/
@[ext] structure InvGammaParams where
  alpha : ℝ
  beta : ℝ
  mu : ℝ

namespace InvGamma

/-- Modelled from the spec: hyperparameter validity for the InvGamma family. -/
def Valid (g : InvGammaParams) : Prop := 0 < g.alpha ∧ 0 < g.beta

/-- Modelled from the spec: the Inverse-Gamma prior density over the variance,
with `beta` acting as an inverse scale (rate). -/
def density (g : InvGammaParams) (var : ℝ) : ℝ :=
  (1 / g.beta) ^ g.alpha / Gamma g.alpha * var ^ (-(g.alpha + 1)) *
    exp (-(1 / (g.beta * var)))

/-- Modelled from the spec: the Gaussian single-observation likelihood with
known mean. -/
def like1 (g : InvGammaParams) (var x : ℝ) : ℝ :=
  (2 * π * var) ^ (-(1 : ℝ) / 2) * exp (-(x - g.mu) ^ 2 / (2 * var))

/-- Modelled from the spec: the product likelihood of a data set. -/
def likelihood (g : InvGammaParams) (var : ℝ) (D : List ℝ) : ℝ :=
  (D.map (like1 g var)).prod

/-- Modelled from the spec: the conjugate posterior update, accumulating half
the squared deviations from the known mean into the rate. -/
def post (g : InvGammaParams) (D : List ℝ) : InvGammaParams where
  alpha := g.alpha + D.length / 2
  beta := g.beta / (1 + g.beta * ssq g.mu D / 2)
  mu := g.mu

/-- Modelled from the spec: the closed-form marginal evidence of `D`. -/
def evidence (g : InvGammaParams) (D : List ℝ) : ℝ :=
  Gamma (post g D).alpha / Gamma g.alpha *
    ((post g D).beta ^ (post g D).alpha / g.beta ^ g.alpha) *
    (2 * π) ^ (-(D.length : ℝ) / 2)

/-- Modelled from the spec: the Student-t prior predictive density. -/
def pred (g : InvGammaParams) (x : ℝ) : ℝ :=
  Gamma (g.alpha + 1 / 2) / Gamma g.alpha *
    ((g.beta / (1 + g.beta * (x - g.mu) ^ 2 / 2)) ^ (g.alpha + 1 / 2) /
      g.beta ^ g.alpha) *
    (2 * π) ^ (-(1 : ℝ) / 2)

@[simp] lemma post_alpha (g : InvGammaParams) (D : List ℝ) :
    (post g D).alpha = g.alpha + D.length / 2 := rfl

@[simp] lemma post_mu_IG (g : InvGammaParams) (D : List ℝ) : (post g D).mu = g.mu := rfl

lemma post_beta (g : InvGammaParams) (D : List ℝ) :
    (post g D).beta = g.beta / (1 + g.beta * ssq g.mu D / 2) := rfl

lemma one_add_pos {g : InvGammaParams} (hg : Valid g) (D : List ℝ) :
    0 < 1 + g.beta * ssq g.mu D / 2 := by
  have h1 := ssq_nonneg g.mu D
  have h2 := hg.2
  positivity

lemma valid_post_IG {g : InvGammaParams} (hg : Valid g) (D : List ℝ) :
    Valid (post g D) := by
  obtain ⟨ha, hb⟩ := hg
  refine ⟨by rw [post_alpha]; positivity, ?_⟩
  rw [post_beta]
  have := one_add_pos ⟨ha, hb⟩ D
  positivity

/-- The inverse rate accumulates half squared deviations additively. -/
lemma inv_post_beta {g : InvGammaParams} (hg : Valid g) (D : List ℝ) :
    1 / (post g D).beta = 1 / g.beta + ssq g.mu D / 2 := by
  have hb := hg.2
  have h1 := one_add_pos hg D
  rw [post_beta]
  field_simp
  ring

lemma post_post_IG {g : InvGammaParams} (hg : Valid g) (D1 D2 : List ℝ) :
    post (post g D1) D2 = post g (D1 ++ D2) := by
  have hb := hg.2
  have h1 := one_add_pos hg D1
  have h2 := one_add_pos hg (D1 ++ D2)
  ext
  · simp only [post_alpha, List.length_append]
    push_cast
    ring
  · have e1 : 1 / (post (post g D1) D2).beta = 1 / (post g (D1 ++ D2)).beta := by
      rw [inv_post_beta (valid_post_IG hg D1) D2, post_mu_IG, inv_post_beta hg D1,
        inv_post_beta hg (D1 ++ D2), ssq_append]
      ring
    rw [one_div, one_div] at e1
    exact inv_injective e1
  · rfl

lemma post_nil_IG (g : InvGammaParams) : post g [] = g := by
  ext
  · simp [post_alpha]
  · rw [post_beta]
    simp
  · rfl

lemma post_perm_IG (g : InvGammaParams) {D D' : List ℝ} (h : D.Perm D') :
    post g D = post g D' := by
  ext
  · simp [post_alpha, h.length_eq]
  · rw [post_beta, post_beta, ssq_perm g.mu h]
  · rfl

lemma likelihood_eq_NIX_IG (g : InvGammaParams) (var : ℝ) (D : List ℝ) :
    likelihood g var D = NIX.likelihood g.mu var D := rfl

lemma likelihood_pos_IG (g : InvGammaParams) {var : ℝ} (hv : 0 < var) (D : List ℝ) :
    0 < likelihood g var D := by
  rw [likelihood_eq_NIX_IG]
  exact NIX.likelihood_pos_X g.mu hv D

/-- The joint heavy laws of the InvGamma family: Bayes master identity,
evidence positivity, predictive-evidence agreement on singletons, evidence
recursion, sequential chain, and permutation invariance. -/
lemma laws_IG :
    (∀ {g : InvGammaParams} (hg : Valid g) (D : List ℝ) {var : ℝ} (hv : 0 < var), density (post g D) var = density g var * likelihood g var D / evidence g D) ∧
    (∀ {g : InvGammaParams} (hg : Valid g) (D : List ℝ), 0 < evidence g D) ∧
    (∀ {g : InvGammaParams} ( _hg : Valid g) (x : ℝ), pred g x = evidence g [x]) ∧
    (∀ {g : InvGammaParams} (hg : Valid g) (x : ℝ) (T : List ℝ), evidence g (x :: T) = pred g x * evidence (post g [x]) T) ∧
    (∀ {g : InvGammaParams} (hg : Valid g) (D : List ℝ), evidence g D = ∏ i : Fin D.length, pred (post g (D.take i.1)) (D.get i)) ∧
    (∀ (g : InvGammaParams) {D D' : List ℝ} (h : D.Perm D'), evidence g D = evidence g D') := by
  have density_pos_IG : ∀ {g : InvGammaParams} (hg : Valid g) {var : ℝ} (hv : 0 < var), 0 < density g var := by
    intro g hg var hv
    obtain ⟨ha, hb⟩ := hg
    delta density
    positivity
  have evidence_pos_IG : ∀ {g : InvGammaParams} (hg : Valid g) (D : List ℝ), 0 < evidence g D := by
    intro g hg D
    have h1 := (valid_post_IG hg D).1
    have h2 := (valid_post_IG hg D).2
    obtain ⟨ha, hb⟩ := hg
    delta evidence
    positivity
  have log_density_IG : ∀ {g : InvGammaParams} (hg : Valid g) {var : ℝ} (hv : 0 < var), log (density g var) =
      -(g.alpha * log g.beta) - log (Gamma g.alpha) - (g.alpha + 1) * log var -
        1 / (g.beta * var) := by
    intro g hg var hv
    obtain ⟨ha, hb⟩ := hg
    delta density
    rw [
      log_mul' (by positivity) (by positivity),
      log_mul' (by positivity) (by positivity),
      Real.log_exp,
      log_div' (by positivity) (by positivity),
      Real.log_rpow (by positivity),
      Real.log_rpow hv,
      one_div, Real.log_inv]
    ring
  have log_evidence_IG : ∀ {g : InvGammaParams} (hg : Valid g) (D : List ℝ), log (evidence g D) =
      log (Gamma (post g D).alpha) - log (Gamma g.alpha) +
        (post g D).alpha * log (post g D).beta - g.alpha * log g.beta -
        ((D.length : ℝ) / 2) * log (2 * π) := by
    intro g hg D
    have h1 := (valid_post_IG hg D).1
    have h2 := (valid_post_IG hg D).2
    obtain ⟨ha, hb⟩ := hg
    delta evidence
    rw [
      log_mul' (by positivity) (by positivity),
      log_mul' (by positivity) (by positivity),
      log_div' (by positivity) (by positivity),
      log_div' (by positivity) (by positivity),
      Real.log_rpow (by positivity),
      Real.log_rpow (by positivity),
      Real.log_rpow (by positivity)]
    ring
  have master_IG : ∀ {g : InvGammaParams} (hg : Valid g) (D : List ℝ) {var : ℝ}
    (hv : 0 < var), density (post g D) var = density g var * likelihood g var D / evidence g D := by
    intro g hg D var hv
    have hd := density_pos_IG hg hv
    have hl := likelihood_pos_IG g hv D
    have he := evidence_pos_IG hg D
    have hexp : 1 / ((post g D).beta * var) =
        1 / (g.beta * var) + ssq g.mu D / (2 * var) := by
      have h1 := one_add_pos hg D
      have hb := hg.2
      rw [post_beta]
      field_simp
      ring
    apply eq_of_log_eq (density_pos_IG (valid_post_IG hg D) hv) (div_pos (mul_pos hd hl) he)
    rw [log_div' (mul_pos hd hl) he, log_mul' hd hl,
      log_density_IG (valid_post_IG hg D) hv, log_density_IG hg hv,
      likelihood_eq_NIX_IG, NIX.log_likelihood_X g.mu hv D,
      log_evidence_IG hg D, hexp]
    simp only [post_alpha]
    ring
  have evidence_nil_IG : ∀ {g : InvGammaParams} (hg : Valid g), evidence g [] = 1 := by
    intro g hg
    obtain ⟨ha, hb⟩ := hg
    have hg1 : Gamma g.alpha ≠ 0 := by positivity
    delta evidence
    rw [ post_nil_IG]
    simp only [List.length_nil, Nat.cast_zero, neg_zero, zero_div, Real.rpow_zero]
    rw [div_self hg1, div_self (by positivity : (g.beta : ℝ) ^ g.alpha ≠ 0)]
    norm_num
  have pred_eq_evidence_single_IG : ∀ {g : InvGammaParams} ( _hg : Valid g) (x : ℝ), pred g x = evidence g [x] := by
    intro g _hg x
    delta pred evidence
    rw [ post_beta]
    simp only [post_alpha, List.length_cons, List.length_nil, Nat.cast_one, Nat.cast_zero,
      ssq_cons, ssq_nil, add_zero]
    norm_num
  have evidence_cons_IG : ∀ {g : InvGammaParams} (hg : Valid g) (x : ℝ) (T : List ℝ), evidence g (x :: T) = pred g x * evidence (post g [x]) T := by
    intro g hg x T
    rw [pred_eq_evidence_single_IG hg x]
    have h1 := evidence_pos_IG hg (x :: T)
    have h2 := evidence_pos_IG hg [x]
    have h3 := evidence_pos_IG (valid_post_IG hg [x]) T
    apply eq_of_log_eq h1 (mul_pos h2 h3)
    rw [log_mul' h2 h3, log_evidence_IG hg (x :: T), log_evidence_IG hg [x],
      log_evidence_IG (valid_post_IG hg [x]) T,
      post_post_IG hg [x] T]
    simp only [List.cons_append, List.nil_append, post_alpha, List.length_cons,
      List.length_nil]
    push_cast
    ring
  have evidence_perm_IG : ∀ (g : InvGammaParams) {D D' : List ℝ} (h : D.Perm D'), evidence g D = evidence g D' := by
    intro g D D' h
    delta evidence
    rw [ post_perm_IG g h, h.length_eq]
  have evidence_chain_IG : ∀ {g : InvGammaParams} (hg : Valid g) (D : List ℝ), evidence g D = ∏ i : Fin D.length, pred (post g (D.take i.1)) (D.get i) := by
    intro g hg D
    induction D generalizing g with
    | nil => simp [evidence_nil_IG hg]
    | cons x T ih =>
        rw [evidence_cons_IG hg x T, ih (valid_post_IG hg [x])]
        simp only [List.length_cons]
        rw [Fin.prod_univ_succ]
        congr 1
        · simp [post_nil_IG]
        · apply Finset.prod_congr rfl
          intro i _
          rw [post_post_IG hg [x] (T.take i.1)]
          simp only [List.cons_append, List.nil_append, Fin.val_succ, List.take_succ_cons]
          rfl
  exact ⟨master_IG, evidence_pos_IG, pred_eq_evidence_single_IG, evidence_cons_IG, evidence_chain_IG, evidence_perm_IG⟩

end InvGamma

lemma rpow_half_sq {a : ℝ} (ha : 0 ≤ a) : (a ^ ((1 : ℝ) / 2)) ^ 2 = a := by
  rw [← Real.rpow_natCast (a ^ ((1 : ℝ) / 2)) 2, ← Real.rpow_mul ha]
  norm_num

/-! ## The Gaussian-mean-with-known-variance variant

Modelled from the spec: a conjugate Gaussian prior over an unknown scalar mean
with a fixed, known observation standard deviation `sig`, parameterized by
`(mu_0, sig_0, sig)`. -/

/-- Hyperparameters of the known-variance Gaussian mean model. -/
@[ext] structure GaussianMeanKnownVarianceParams where
  mu_0 : ℝ
  sig_0 : ℝ
  sig : ℝ

namespace GaussianMeanKnownVariance

/-- Modelled from the spec: hyperparameter validity. -/
def Valid (p : GaussianMeanKnownVarianceParams) : Prop := 0 < p.sig_0 ∧ 0 < p.sig

/-- Modelled from the spec: the Gaussian prior density over the mean. -/
def density (p : GaussianMeanKnownVarianceParams) (mu : ℝ) : ℝ :=
  (2 * π * p.sig_0 ^ 2) ^ (-(1 : ℝ) / 2) * exp (-(mu - p.mu_0) ^ 2 / p.sig_0 ^ 2 / 2)

/-- Modelled from the spec: the Gaussian single-observation likelihood with
known standard deviation. -/
def like1 (p : GaussianMeanKnownVarianceParams) (mu x : ℝ) : ℝ :=
  (2 * π * p.sig ^ 2) ^ (-(1 : ℝ) / 2) * exp (-(x - mu) ^ 2 / (2 * p.sig ^ 2))

/-- Modelled from the spec: the product likelihood of a data set. -/
def likelihood (p : GaussianMeanKnownVarianceParams) (mu : ℝ) (D : List ℝ) : ℝ :=
  (D.map (like1 p mu)).prod

/-- Modelled from the spec: the conjugate Gaussian update of mean and
standard deviation by the sufficient statistics of `D`. -/
def post (p : GaussianMeanKnownVarianceParams) (D : List ℝ) :
    GaussianMeanKnownVarianceParams where
  mu_0 := (p.mu_0 * p.sig ^ 2 + p.sig_0 ^ 2 * sum1 D) /
    (p.sig ^ 2 + D.length * p.sig_0 ^ 2)
  sig_0 := (p.sig_0 ^ 2 * p.sig ^ 2 / (p.sig ^ 2 + D.length * p.sig_0 ^ 2)) ^ ((1 : ℝ) / 2)
  sig := p.sig

/-- The natural-parameter normalizer of the Gaussian mean prior. -/
def W (q : GaussianMeanKnownVarianceParams) : ℝ :=
  q.sig_0 * exp (q.mu_0 ^ 2 / (2 * q.sig_0 ^ 2))

/-- Modelled from the spec: the closed-form marginal evidence of `D`, the
ratio of posterior to prior normalizers times the accumulated likelihood
constants. -/
def evidence (p : GaussianMeanKnownVarianceParams) (D : List ℝ) : ℝ :=
  (2 * π * p.sig ^ 2) ^ (-(D.length : ℝ) / 2) * exp (-(sum2 D) / (2 * p.sig ^ 2)) *
    (W (post p D) / W p)

/-- Modelled from the spec: the Gaussian prior predictive density. -/
def pred (p : GaussianMeanKnownVarianceParams) (x : ℝ) : ℝ :=
  (2 * π * (p.sig_0 ^ 2 + p.sig ^ 2)) ^ (-(1 : ℝ) / 2) *
    exp (-(x - p.mu_0) ^ 2 / (p.sig_0 ^ 2 + p.sig ^ 2) / 2)

lemma post_mu_K (p : GaussianMeanKnownVarianceParams) (D : List ℝ) :
    (post p D).mu_0 = (p.mu_0 * p.sig ^ 2 + p.sig_0 ^ 2 * sum1 D) /
      (p.sig ^ 2 + D.length * p.sig_0 ^ 2) := rfl

@[simp] lemma post_sig (p : GaussianMeanKnownVarianceParams) (D : List ℝ) :
    (post p D).sig = p.sig := rfl

lemma post_sig0 (p : GaussianMeanKnownVarianceParams) (D : List ℝ) :
    (post p D).sig_0 =
      (p.sig_0 ^ 2 * p.sig ^ 2 / (p.sig ^ 2 + D.length * p.sig_0 ^ 2)) ^ ((1 : ℝ) / 2) :=
  rfl

lemma A_pos {p : GaussianMeanKnownVarianceParams} (hp : Valid p) (D : List ℝ) :
    0 < p.sig ^ 2 + (D.length : ℝ) * p.sig_0 ^ 2 := by
  obtain ⟨h0, h⟩ := hp
  positivity

/-- The posterior variance in closed rational form. -/
lemma post_sig0_sq {p : GaussianMeanKnownVarianceParams} (hp : Valid p) (D : List ℝ) :
    (post p D).sig_0 ^ 2 =
      p.sig_0 ^ 2 * p.sig ^ 2 / (p.sig ^ 2 + (D.length : ℝ) * p.sig_0 ^ 2) := by
  rw [post_sig0]
  apply rpow_half_sq
  have := A_pos hp D
  have h0 := hp.1
  have h := hp.2
  positivity

lemma valid_post_K {p : GaussianMeanKnownVarianceParams} (hp : Valid p) (D : List ℝ) :
    Valid (post p D) := by
  have hA := A_pos hp D
  obtain ⟨h0, h⟩ := hp
  refine ⟨?_, by rw [post_sig]; exact h⟩
  rw [post_sig0]
  positivity

/-- Completing the square for the Gaussian mean update. -/
lemma exponent_identity_K {p : GaussianMeanKnownVarianceParams} (hp : Valid p)
    (D : List ℝ) (mu : ℝ) :
    (mu - (post p D).mu_0) ^ 2 / (post p D).sig_0 ^ 2 =
      (mu - p.mu_0) ^ 2 / p.sig_0 ^ 2 + ssq mu D / p.sig ^ 2 - sum2 D / p.sig ^ 2 +
        (post p D).mu_0 ^ 2 / (post p D).sig_0 ^ 2 - p.mu_0 ^ 2 / p.sig_0 ^ 2 := by
  have hA := A_pos hp D
  have h0 := hp.1
  have h := hp.2
  rw [post_sig0_sq hp D, post_mu_K, ssq_eq]
  field_simp
  ring

end GaussianMeanKnownVariance

namespace GaussianMeanKnownVariance

lemma sq_rpow_half {a : ℝ} (ha : 0 ≤ a) : (a ^ (2 : ℕ)) ^ ((1 : ℝ) / 2) = a := by
  rw [← Real.rpow_natCast a 2, ← Real.rpow_mul ha]
  norm_num

lemma W_pos {q : GaussianMeanKnownVarianceParams} (hq : Valid q) : 0 < W q := by
  have h := hq.1
  rw [W]
  positivity

lemma likelihood_eq_NIX_K (p : GaussianMeanKnownVarianceParams) (mu : ℝ) (D : List ℝ) :
    likelihood p mu D = NIX.likelihood mu (p.sig ^ 2) D := rfl

lemma likelihood_pos_K {p : GaussianMeanKnownVarianceParams} (hp : Valid p) (mu : ℝ)
    (D : List ℝ) : 0 < likelihood p mu D := by
  rw [likelihood_eq_NIX_K]
  exact NIX.likelihood_pos_X mu (by have := hp.2; positivity) D

end GaussianMeanKnownVariance

namespace GaussianMeanKnownVariance

lemma post_post_K {p : GaussianMeanKnownVarianceParams} (hp : Valid p) (D1 D2 : List ℝ) :
    post (post p D1) D2 = post p (D1 ++ D2) := by
  have hA1 := A_pos hp D1
  have hA12 := A_pos hp (D1 ++ D2)
  have h0 := hp.1
  have h := hp.2
  ext
  · rw [post_mu_K, post_mu_K, post_mu_K, post_sig0_sq hp D1, post_sig, sum1_append,
      List.length_append]
    push_cast
    field_simp
    ring
  · rw [post_sig0 (post p D1) D2, post_sig0_sq hp D1, post_sig,
      post_sig0 p (D1 ++ D2), List.length_append]
    congr 1
    push_cast
    field_simp
    ring
  · rfl

lemma post_nil_K {p : GaussianMeanKnownVarianceParams} (hp : Valid p) : post p [] = p := by
  have h0 := hp.1
  have h := hp.2
  ext
  · rw [post_mu_K]
    simp
    field_simp
  · rw [post_sig0]
    simp only [List.length_nil, Nat.cast_zero, zero_mul, add_zero]
    rw [show p.sig_0 ^ 2 * p.sig ^ 2 / p.sig ^ 2 = p.sig_0 ^ 2 by field_simp]
    exact sq_rpow_half h0.le
  · rfl

lemma post_perm_K (p : GaussianMeanKnownVarianceParams) {D D' : List ℝ}
    (h : D.Perm D') : post p D = post p D' := by
  ext
  · rw [post_mu_K, post_mu_K, sum1_perm h, h.length_eq]
  · rw [post_sig0, post_sig0, h.length_eq]
  · rfl

/-- The mean and variance combination entering the singleton evidence. -/
lemma single_C {p : GaussianMeanKnownVarianceParams} (hp : Valid p) (x : ℝ) :
    (post p [x]).mu_0 ^ 2 / (post p [x]).sig_0 ^ 2 =
      x ^ 2 / p.sig ^ 2 + p.mu_0 ^ 2 / p.sig_0 ^ 2 -
        (x - p.mu_0) ^ 2 / (p.sig_0 ^ 2 + p.sig ^ 2) := by
  have h0 := hp.1
  have h := hp.2
  rw [post_mu_K, post_sig0_sq hp [x]]
  simp only [sum1_cons, sum1_nil, add_zero, List.length_cons, List.length_nil,
    Nat.cast_one, Nat.cast_zero]
  have hA : (0 : ℝ) < p.sig ^ 2 + 1 * p.sig_0 ^ 2 := by positivity
  field_simp
  ring

lemma log_post_sig0 {p : GaussianMeanKnownVarianceParams} (hp : Valid p) (D : List ℝ) :
    log (post p D).sig_0 =
      log p.sig_0 + log p.sig -
        (1 / 2) * log (p.sig ^ 2 + (D.length : ℝ) * p.sig_0 ^ 2) := by
  have hA := A_pos hp D
  have h0 := hp.1
  have h := hp.2
  rw [post_sig0, Real.log_rpow (by positivity),
    log_div' (by positivity) (by positivity),
    log_mul' (by positivity) (by positivity),
    Real.log_pow, Real.log_pow]
  push_cast
  ring

/-- The joint heavy laws of the Gaussian known-variance family: Bayes master
identity, evidence positivity, predictive-evidence agreement on singletons,
evidence recursion, sequential chain, and permutation invariance. -/
lemma laws_K :
    (∀ {p : GaussianMeanKnownVarianceParams} (hp : Valid p) (D : List ℝ) (mu : ℝ), density (post p D) mu = density p mu * likelihood p mu D / evidence p D) ∧
    (∀ {p : GaussianMeanKnownVarianceParams} (hp : Valid p) (D : List ℝ), 0 < evidence p D) ∧
    (∀ {p : GaussianMeanKnownVarianceParams} (hp : Valid p) (x : ℝ), pred p x = evidence p [x]) ∧
    (∀ {p : GaussianMeanKnownVarianceParams} (hp : Valid p) (x : ℝ) (T : List ℝ), evidence p (x :: T) = pred p x * evidence (post p [x]) T) ∧
    (∀ {p : GaussianMeanKnownVarianceParams} (hp : Valid p) (D : List ℝ), evidence p D = ∏ i : Fin D.length, pred (post p (D.take i.1)) (D.get i)) ∧
    (∀ (p : GaussianMeanKnownVarianceParams) {D D' : List ℝ} (h : D.Perm D'), evidence p D = evidence p D') := by
  have density_pos_K : ∀ {p : GaussianMeanKnownVarianceParams} (hp : Valid p) (mu : ℝ), 0 < density p mu := by
    intro p hp mu
    have h0 := hp.1
    delta density
    positivity
  have evidence_pos_K : ∀ {p : GaussianMeanKnownVarianceParams} (hp : Valid p) (D : List ℝ), 0 < evidence p D := by
    intro p hp D
    have h1 := W_pos hp
    have h2 := W_pos (valid_post_K hp D)
    have h := hp.2
    delta evidence
    positivity
  have pred_pos_K : ∀ {p : GaussianMeanKnownVarianceParams} (hp : Valid p) (x : ℝ), 0 < pred p x := by
    intro p hp x
    have h0 := hp.1
    have h := hp.2
    delta pred
    positivity
  have log_density_K : ∀ {p : GaussianMeanKnownVarianceParams} (hp : Valid p) (mu : ℝ), log (density p mu) =
      -(1 / 2) * log (2 * π) - log p.sig_0 - (mu - p.mu_0) ^ 2 / p.sig_0 ^ 2 / 2 := by
    intro p hp mu
    have h0 := hp.1
    delta density
    rw [
      log_mul' (by positivity) (by positivity),
      Real.log_exp,
      Real.log_rpow (by positivity),
      log_mul' (by positivity) (by positivity),
      Real.log_pow]
    push_cast
    ring
  have log_evidence_K : ∀ {p : GaussianMeanKnownVarianceParams} (hp : Valid p) (D : List ℝ), log (evidence p D) =
      -((D.length : ℝ) / 2) * log (2 * π) - (D.length : ℝ) * log p.sig -
        sum2 D / (2 * p.sig ^ 2) +
        (log (post p D).sig_0 + (post p D).mu_0 ^ 2 / (2 * (post p D).sig_0 ^ 2)) -
        (log p.sig_0 + p.mu_0 ^ 2 / (2 * p.sig_0 ^ 2)) := by
    intro p hp D
    have h0 := hp.1
    have h := hp.2
    have h1 := W_pos hp
    have h2 := W_pos (valid_post_K hp D)
    have h3 := (valid_post_K hp D).1
    delta evidence
    rw [
      log_mul' (by positivity) (by positivity),
      log_mul' (by positivity) (by positivity),
      Real.log_exp,
      Real.log_rpow (by positivity),
      log_mul' (by positivity) (by positivity),
      Real.log_pow,
      log_div' h2 h1, W, W,
      log_mul' h3 (by positivity),
      log_mul' h0 (by positivity),
      Real.log_exp, Real.log_exp]
    push_cast
    ring
  have master_K : ∀ {p : GaussianMeanKnownVarianceParams} (hp : Valid p) (D : List ℝ)
    (mu : ℝ), density (post p D) mu = density p mu * likelihood p mu D / evidence p D := by
    intro p hp D mu
    have hd := density_pos_K hp mu
    have hl := likelihood_pos_K hp mu D
    have he := evidence_pos_K hp D
    have hE := exponent_identity_K hp D mu
    apply eq_of_log_eq (density_pos_K (valid_post_K hp D) mu) (div_pos (mul_pos hd hl) he)
    rw [log_div' (mul_pos hd hl) he, log_mul' hd hl,
      log_density_K (valid_post_K hp D) mu, log_density_K hp mu,
      likelihood_eq_NIX_K, NIX.log_likelihood_X mu (by have := hp.2; positivity) D,
      log_evidence_K hp D]
    simp only [Real.log_pow, post_sig]
    push_cast
    linear_combination (-(1 : ℝ) / 2) * hE
  have evidence_nil_K : ∀ {p : GaussianMeanKnownVarianceParams} (hp : Valid p), evidence p [] = 1 := by
    intro p hp
    delta evidence
    rw [ post_nil_K hp]
    simp [div_self (W_pos hp).ne']
  have pred_eq_evidence_single_K : ∀ {p : GaussianMeanKnownVarianceParams} (hp : Valid p)
    (x : ℝ), pred p x = evidence p [x] := by
    intro p hp x
    have h0 := hp.1
    have h := hp.2
    have hS : (0 : ℝ) < p.sig_0 ^ 2 + p.sig ^ 2 := by positivity
    have hC := single_C hp x
    apply eq_of_log_eq (pred_pos_K hp x) (evidence_pos_K hp [x])
    delta pred
    rw [ log_mul' (by positivity) (by positivity), Real.log_exp,
      Real.log_rpow (by positivity), log_mul' (by positivity) (by positivity),
      log_evidence_K hp [x], log_post_sig0 hp [x]]
    simp only [sum2_cons, sum2_nil, add_zero, List.length_cons, List.length_nil,
      zero_add, Nat.cast_one, Nat.cast_zero]
    rw [show p.sig ^ 2 + (1 : ℝ) * p.sig_0 ^ 2 = p.sig_0 ^ 2 + p.sig ^ 2 by ring]
    linear_combination (-(1 : ℝ) / 2) * hC
  have evidence_cons_K : ∀ {p : GaussianMeanKnownVarianceParams} (hp : Valid p) (x : ℝ)
    (T : List ℝ), evidence p (x :: T) = pred p x * evidence (post p [x]) T := by
    intro p hp x T
    rw [pred_eq_evidence_single_K hp x]
    have h1 := evidence_pos_K hp (x :: T)
    have h2 := evidence_pos_K hp [x]
    have h3 := evidence_pos_K (valid_post_K hp [x]) T
    apply eq_of_log_eq h1 (mul_pos h2 h3)
    rw [log_mul' h2 h3, log_evidence_K hp (x :: T), log_evidence_K hp [x],
      log_evidence_K (valid_post_K hp [x]) T,
      post_post_K hp [x] T]
    simp only [List.cons_append, List.nil_append, post_sig, List.length_cons,
      List.length_nil, sum2_cons, sum2_nil]
    push_cast
    ring
  have evidence_perm_K : ∀ (p : GaussianMeanKnownVarianceParams) {D D' : List ℝ}
    (h : D.Perm D'), evidence p D = evidence p D' := by
    intro p D D' h
    delta evidence
    rw [ post_perm_K p h, h.length_eq, sum2_perm h]
  have evidence_chain_K : ∀ {p : GaussianMeanKnownVarianceParams} (hp : Valid p)
    (D : List ℝ), evidence p D = ∏ i : Fin D.length, pred (post p (D.take i.1)) (D.get i) := by
    intro p hp D
    induction D generalizing p with
    | nil => simp [evidence_nil_K hp]
    | cons x T ih =>
        rw [evidence_cons_K hp x T, ih (valid_post_K hp [x])]
        simp only [List.length_cons]
        rw [Fin.prod_univ_succ]
        congr 1
        · simp [post_nil_K hp]
        · apply Finset.prod_congr rfl
          intro i _
          rw [post_post_K hp [x] (T.take i.1)]
          simp only [List.cons_append, List.nil_append, Fin.val_succ, List.take_succ_cons]
          rfl
  exact ⟨master_K, evidence_pos_K, pred_eq_evidence_single_K, evidence_cons_K, evidence_chain_K, evidence_perm_K⟩

end GaussianMeanKnownVariance

/-! ## Multivariate infrastructure for the Wishart-type variants -/

/-- Outer product of two vectors as a matrix. -/
def outer {d : ℕ} (v w : Fin d → ℝ) : Matrix (Fin d) (Fin d) ℝ := Matrix.vecMulVec v w

/-- Quadratic form of a matrix at a vector. -/
def quadForm {d : ℕ} (A : Matrix (Fin d) (Fin d) ℝ) (v : Fin d → ℝ) : ℝ :=
  v ⬝ᵥ A.mulVec v

/-- Sum of outer products of the observations (matrix sufficient statistic). -/
def msum2 {d : ℕ} (D : List (Fin d → ℝ)) : Matrix (Fin d) (Fin d) ℝ :=
  (D.map (fun x => outer x x)).sum

/-- Sum of quadratic forms of deviations from a fixed center. -/
def qsum {d : ℕ} (A : Matrix (Fin d) (Fin d) ℝ) (t : Fin d → ℝ)
    (D : List (Fin d → ℝ)) : ℝ :=
  (D.map (fun x => quadForm A (x - t))).sum

/-- The multivariate Gamma function. -/
def mgamma (d : ℕ) (a : ℝ) : ℝ :=
  π ^ ((d : ℝ) * ((d : ℝ) - 1) / 4) * ∏ i ∈ Finset.range d, Gamma (a - i / 2)

lemma mgamma_pos {d : ℕ} {a : ℝ} (h : ((d : ℝ) - 1) / 2 < a) : 0 < mgamma d a := by
  delta mgamma
  apply mul_pos (by positivity)
  apply Finset.prod_pos
  intro i hi
  apply Gamma_pos_of_pos
  have hi2 : (i : ℝ) ≤ (d : ℝ) - 1 := by
    have := Finset.mem_range.mp hi
    have : (i : ℝ) + 1 ≤ (d : ℝ) := by exact_mod_cast this
    linarith
  linarith

@[simp] lemma outer_apply {d : ℕ} (v w : Fin d → ℝ) (i j : Fin d) :
    outer v w i j = v i * w j := rfl

lemma trace_mul_outer {d : ℕ} (A : Matrix (Fin d) (Fin d) ℝ) (v w : Fin d → ℝ) :
    Matrix.trace (A * outer v w) = w ⬝ᵥ A.mulVec v := by
  simp only [Matrix.trace, Matrix.diag, Matrix.mul_apply, outer, Matrix.vecMulVec_apply,
    Matrix.mulVec, Matrix.dotProduct, Finset.mul_sum]
  apply Finset.sum_congr rfl
  intro i _
  apply Finset.sum_congr rfl
  intro j _
  ring

lemma outer_mulVec {d : ℕ} (v w x : Fin d → ℝ) :
    (outer v w).mulVec x = (w ⬝ᵥ x) • v := by
  funext i
  simp only [outer, Matrix.mulVec, Matrix.dotProduct, Matrix.vecMulVec_apply,
    Pi.smul_apply, smul_eq_mul, Finset.sum_mul]
  apply Finset.sum_congr rfl
  intro j _
  ring

lemma posSemidef_outer_self {d : ℕ} (v : Fin d → ℝ) : (outer v v).PosSemidef := by
  constructor
  · show (outer v v)ᴴ = outer v v
    ext i j
    simp [Matrix.conjTranspose_apply, mul_comm]
  · intro x
    rw [outer_mulVec, dotProduct_smul]
    simp only [star_trivial, smul_eq_mul]
    rw [dotProduct_comm]
    exact mul_self_nonneg _

lemma posSemidef_smul {d : ℕ} {M : Matrix (Fin d) (Fin d) ℝ} (hM : M.PosSemidef)
    {c : ℝ} (hc : 0 ≤ c) : (c • M).PosSemidef := by
  constructor
  · show (c • M)ᴴ = c • M
    rw [Matrix.conjTranspose_smul, hM.1]
    congr 1
  · intro x
    rw [Matrix.smul_mulVec_assoc, dotProduct_smul, smul_eq_mul]
    exact mul_nonneg hc (hM.2 x)

lemma posSemidef_list_sum {d : ℕ} (L : List (Matrix (Fin d) (Fin d) ℝ))
    (h : ∀ M ∈ L, M.PosSemidef) : L.sum.PosSemidef := by
  induction L with
  | nil => exact Matrix.PosSemidef.zero
  | cons M L ih =>
      rw [List.sum_cons]
      exact (h M (List.mem_cons_self M L)).add (ih fun N hN => h N (List.mem_cons_of_mem M hN))

lemma matrix_list_sum_apply {d : ℕ} (L : List (Matrix (Fin d) (Fin d) ℝ)) (i j : Fin d) :
    L.sum i j = (L.map (fun M => M i j)).sum := by
  induction L with
  | nil => rfl
  | cons M L ih => simp [Matrix.add_apply, ih]

lemma pi_list_sum_apply {d : ℕ} (L : List (Fin d → ℝ)) (i : Fin d) :
    L.sum i = (L.map (fun v => v i)).sum := by
  induction L with
  | nil => rfl
  | cons v L ih => simp [ih]

lemma trace_list_sum {d : ℕ} (L : List (Matrix (Fin d) (Fin d) ℝ)) :
    Matrix.trace L.sum = (L.map Matrix.trace).sum := by
  induction L with
  | nil => simp
  | cons M L ih => simp [Matrix.trace_add, ih]

lemma mul_list_sum {d : ℕ} (A : Matrix (Fin d) (Fin d) ℝ)
    (L : List (Matrix (Fin d) (Fin d) ℝ)) :
    A * L.sum = (L.map (fun M => A * M)).sum := by
  induction L with
  | nil => simp
  | cons M L ih => simp [Matrix.mul_add, ih]

lemma sum_shift2 {α : Type} (f g : α → ℝ) (a b : ℝ) (D : List α) :
    (D.map (fun x => (f x - a) * (g x - b))).sum =
      (D.map (fun x => f x * g x)).sum - b * (D.map f).sum - a * (D.map g).sum +
        (D.length : ℝ) * (a * b) := by
  induction D with
  | nil => simp
  | cons x D ih => simp [ih]; ring

/-! ## The Normal-Inverse-Wishart (NIW) variant

Modelled from the spec: a conjugate prior over a d-dimensional
(mean vector, covariance matrix) pair, parameterized by
`(mu_0, kappa_0, Lam_0, nu_0)`. -/

/-- Hyperparameters of the Normal-Inverse-Wishart prior in dimension `d`. -/
@[ext] structure NIWParams (d : ℕ) where
  mu_0 : Fin d → ℝ
  kappa_0 : ℝ
  Lam_0 : Matrix (Fin d) (Fin d) ℝ
  nu_0 : ℝ

namespace NIW

/-- Modelled from the spec: hyperparameter validity for the NIW family
(positive precision scaling, positive-definite scale matrix, and degrees of
freedom large enough for a proper multivariate Gamma). -/
def Valid {d : ℕ} (p : NIWParams d) : Prop :=
  0 < p.kappa_0 ∧ p.Lam_0.PosDef ∧ (d : ℝ) - 1 < p.nu_0

/-- Modelled from the spec: the NIW joint prior density over `(mu, Sig)`. -/
def density {d : ℕ} (p : NIWParams d) (mu : Fin d → ℝ)
    (Sig : Matrix (Fin d) (Fin d) ℝ) : ℝ :=
  p.kappa_0 ^ ((d : ℝ) / 2) * p.Lam_0.det ^ (p.nu_0 / 2) /
      ((2 * π) ^ ((d : ℝ) / 2) * 2 ^ (p.nu_0 * d / 2) * mgamma d (p.nu_0 / 2)) *
    Sig.det ^ (-((p.nu_0 + d + 2) / 2)) *
    exp (-(Matrix.trace (Sig⁻¹ * p.Lam_0) +
      p.kappa_0 * quadForm Sig⁻¹ (mu - p.mu_0)) / 2)

/-- Modelled from the spec: the multivariate Gaussian single-observation
likelihood. -/
def like1 {d : ℕ} (mu : Fin d → ℝ) (Sig : Matrix (Fin d) (Fin d) ℝ)
    (x : Fin d → ℝ) : ℝ :=
  (2 * π) ^ (-(d : ℝ) / 2) * Sig.det ^ (-(1 : ℝ) / 2) *
    exp (-(quadForm Sig⁻¹ (x - mu)) / 2)

/-- Modelled from the spec: the product likelihood of a data set. -/
def likelihood {d : ℕ} (mu : Fin d → ℝ) (Sig : Matrix (Fin d) (Fin d) ℝ)
    (D : List (Fin d → ℝ)) : ℝ :=
  (D.map (like1 mu Sig)).prod

/-- Modelled from the spec: the conjugate posterior update of the NIW
hyperparameters by the sufficient statistics of `D`. -/
def post {d : ℕ} (p : NIWParams d) (D : List (Fin d → ℝ)) : NIWParams d where
  mu_0 := (p.kappa_0 + D.length)⁻¹ • (p.kappa_0 • p.mu_0 + D.sum)
  kappa_0 := p.kappa_0 + D.length
  Lam_0 := p.Lam_0 + msum2 D + p.kappa_0 • outer p.mu_0 p.mu_0 -
    (p.kappa_0 + D.length) •
      outer ((p.kappa_0 + D.length)⁻¹ • (p.kappa_0 • p.mu_0 + D.sum))
        ((p.kappa_0 + D.length)⁻¹ • (p.kappa_0 • p.mu_0 + D.sum))
  nu_0 := p.nu_0 + D.length

/-- Modelled from the spec: the closed-form marginal evidence of `D`. -/
def evidence {d : ℕ} (p : NIWParams d) (D : List (Fin d → ℝ)) : ℝ :=
  mgamma d ((post p D).nu_0 / 2) / mgamma d (p.nu_0 / 2) *
    (p.Lam_0.det ^ (p.nu_0 / 2) / (post p D).Lam_0.det ^ ((post p D).nu_0 / 2)) *
    (p.kappa_0 / (post p D).kappa_0) ^ ((d : ℝ) / 2) *
    π ^ (-((D.length : ℝ) * d) / 2)

/-- Modelled from the spec: the multivariate Student-t prior predictive
density in rank-one-update closed form. -/
def pred {d : ℕ} (p : NIWParams d) (x : Fin d → ℝ) : ℝ :=
  mgamma d ((p.nu_0 + 1) / 2) / mgamma d (p.nu_0 / 2) *
    (p.Lam_0.det ^ (p.nu_0 / 2) /
      (p.Lam_0 + (p.kappa_0 / (p.kappa_0 + 1)) • outer (x - p.mu_0) (x - p.mu_0)).det ^
        ((p.nu_0 + 1) / 2)) *
    (p.kappa_0 / (p.kappa_0 + 1)) ^ ((d : ℝ) / 2) *
    π ^ (-(d : ℝ) / 2)

@[simp] lemma post_kappa_W {d : ℕ} (p : NIWParams d) (D : List (Fin d → ℝ)) :
    (post p D).kappa_0 = p.kappa_0 + D.length := rfl

@[simp] lemma post_nu_W {d : ℕ} (p : NIWParams d) (D : List (Fin d → ℝ)) :
    (post p D).nu_0 = p.nu_0 + D.length := rfl

lemma post_mu_W {d : ℕ} (p : NIWParams d) (D : List (Fin d → ℝ)) :
    (post p D).mu_0 = (p.kappa_0 + D.length)⁻¹ • (p.kappa_0 • p.mu_0 + D.sum) := rfl

lemma post_Lam {d : ℕ} (p : NIWParams d) (D : List (Fin d → ℝ)) :
    (post p D).Lam_0 = p.Lam_0 + msum2 D + p.kappa_0 • outer p.mu_0 p.mu_0 -
      (p.kappa_0 + D.length) • outer ((post p D).mu_0) ((post p D).mu_0) := rfl

/-- Completing the square for the NIW scale-matrix update. -/
lemma lam_square {d : ℕ} {p : NIWParams d} (hp : Valid p) (D : List (Fin d → ℝ))
    (mu : Fin d → ℝ) :
    (post p D).Lam_0 +
        (post p D).kappa_0 • outer (mu - (post p D).mu_0) (mu - (post p D).mu_0) =
      p.Lam_0 + p.kappa_0 • outer (mu - p.mu_0) (mu - p.mu_0) +
        (D.map (fun x => outer (x - mu) (x - mu))).sum := by
  have hk := hp.1
  have hkn : (0 : ℝ) < p.kappa_0 + D.length := by positivity
  ext i j
  simp only [post, Matrix.add_apply, Matrix.sub_apply, Matrix.smul_apply, outer_apply,
    Pi.sub_apply, Pi.smul_apply, Pi.add_apply, smul_eq_mul, msum2,
    matrix_list_sum_apply, pi_list_sum_apply, List.map_map, Function.comp_def]
  rw [sum_shift2 (fun x => x i) (fun x => x j) (mu i) (mu j) D]
  field_simp
  ring

end NIW

namespace NIW

/-- The posterior scale matrix decomposes as the prior scale plus
positive-semidefinite corrections. -/
lemma post_Lam_decomp {d : ℕ} {p : NIWParams d} (hp : Valid p)
    (D : List (Fin d → ℝ)) :
    (post p D).Lam_0 =
      p.Lam_0 +
        p.kappa_0 • outer ((post p D).mu_0 - p.mu_0) ((post p D).mu_0 - p.mu_0) +
        (D.map (fun x =>
          outer (x - (post p D).mu_0) (x - (post p D).mu_0))).sum := by
  have h := lam_square hp D ((post p D).mu_0)
  have h0 : outer ((post p D).mu_0 - (post p D).mu_0)
      ((post p D).mu_0 - (post p D).mu_0) = 0 := by
    ext i j
    simp
  rw [h0, smul_zero, add_zero] at h
  exact h

lemma post_Lam_posdef {d : ℕ} {p : NIWParams d} (hp : Valid p)
    (D : List (Fin d → ℝ)) : (post p D).Lam_0.PosDef := by
  rw [post_Lam_decomp hp D]
  refine (hp.2.1.add_posSemidef ?_).add_posSemidef ?_
  · exact posSemidef_smul (posSemidef_outer_self _) hp.1.le
  · refine posSemidef_list_sum _ (fun M hM => ?_)
    obtain ⟨x, _, rfl⟩ := List.mem_map.mp hM
    exact posSemidef_outer_self _

lemma valid_post_W {d : ℕ} {p : NIWParams d} (hp : Valid p) (D : List (Fin d → ℝ)) :
    Valid (post p D) := by
  refine ⟨?_, post_Lam_posdef hp D, ?_⟩
  · rw [post_kappa_W]
    have := hp.1
    positivity
  · rw [post_nu_W]
    have := hp.2.2
    have : (0 : ℝ) ≤ D.length := by positivity
    linarith [hp.2.2]

@[simp] lemma qsum_nil {d : ℕ} (A : Matrix (Fin d) (Fin d) ℝ) (t : Fin d → ℝ) :
    qsum A t [] = 0 := rfl

@[simp] lemma qsum_cons {d : ℕ} (A : Matrix (Fin d) (Fin d) ℝ) (t x : Fin d → ℝ)
    (D : List (Fin d → ℝ)) :
    qsum A t (x :: D) = quadForm A (x - t) + qsum A t D := by
  simp [qsum]

/-- Completing the square at the level of the density exponents. -/
lemma exponent_identity_W {d : ℕ} {p : NIWParams d} (hp : Valid p)
    (D : List (Fin d → ℝ)) (mu : Fin d → ℝ) (Sig : Matrix (Fin d) (Fin d) ℝ) :
    Matrix.trace (Sig⁻¹ * (post p D).Lam_0) +
        (post p D).kappa_0 * quadForm Sig⁻¹ (mu - (post p D).mu_0) =
      Matrix.trace (Sig⁻¹ * p.Lam_0) + p.kappa_0 * quadForm Sig⁻¹ (mu - p.mu_0) +
        qsum Sig⁻¹ mu D := by
  have h := congrArg (fun M => Matrix.trace (Sig⁻¹ * M)) (lam_square hp D mu)
  simp only [Matrix.mul_add, Matrix.trace_add, mul_list_sum, trace_list_sum,
    List.map_map, Function.comp_def, Matrix.mul_smul, Matrix.trace_smul,
    smul_eq_mul, trace_mul_outer] at h
  simp only [qsum, quadForm]
  linarith [h]

/-- The joint likelihood collapses to a closed form in the sufficient
statistics. -/
lemma likelihood_eq_W {d : ℕ} (mu : Fin d → ℝ) {Sig : Matrix (Fin d) (Fin d) ℝ}
    (hS : 0 < Sig.det) (D : List (Fin d → ℝ)) :
    likelihood mu Sig D =
      (2 * π) ^ (-((D.length : ℝ) * d) / 2) * Sig.det ^ (-(D.length : ℝ) / 2) *
        exp (-(qsum Sig⁻¹ mu D) / 2) := by
  induction D with
  | nil => simp [likelihood]
  | cons x D ih =>
      have h2 : (0 : ℝ) < 2 * π := by positivity
      have hl : likelihood mu Sig (x :: D) = like1 mu Sig x * likelihood mu Sig D := by
        simp [likelihood]
      have e1 : (-(((x :: D).length : ℝ) * d) / 2) =
          (-(d : ℝ) / 2) + (-((D.length : ℝ) * d) / 2) := by
        push_cast [List.length_cons]; ring
      have e2 : (-((x :: D).length : ℝ) / 2) = (-(1 : ℝ) / 2) + (-(D.length : ℝ) / 2) := by
        push_cast [List.length_cons]; ring
      have e3 : (-(qsum Sig⁻¹ mu (x :: D)) / 2) =
          (-(quadForm Sig⁻¹ (x - mu)) / 2) + (-(qsum Sig⁻¹ mu D) / 2) := by
        rw [qsum_cons]; ring
      rw [hl, ih, e1, e2, e3, Real.rpow_add h2, Real.rpow_add hS, Real.exp_add, like1]
      ring

lemma likelihood_pos_W {d : ℕ} (mu : Fin d → ℝ) {Sig : Matrix (Fin d) (Fin d) ℝ}
    (hS : 0 < Sig.det) (D : List (Fin d → ℝ)) : 0 < likelihood mu Sig D := by
  rw [likelihood_eq_W mu hS]
  positivity

end NIW

namespace NIW

/-- Log-expansion of the collapsed NIW likelihood. -/
lemma log_likelihood_W {d : ℕ} (mu : Fin d → ℝ) {Sig : Matrix (Fin d) (Fin d) ℝ}
    (hS : 0 < Sig.det) (D : List (Fin d → ℝ)) :
    log (likelihood mu Sig D) =
      -(((D.length : ℝ) * d) / 2) * (log 2 + log π) -
        ((D.length : ℝ) / 2) * log Sig.det - qsum Sig⁻¹ mu D / 2 := by
  have h2 : (0 : ℝ) < 2 * π := by positivity
  rw [likelihood_eq_W mu hS,
    log_mul' (by positivity) (by positivity),
    Real.log_exp,
    log_mul' (by positivity) (by positivity),
    Real.log_rpow h2, Real.log_rpow hS,
    log_mul' (by positivity) (by positivity)]
  ring

end NIW

namespace NIW

lemma post_nil_W {d : ℕ} {p : NIWParams d} (hp : Valid p) : post p [] = p := by
  have hk := hp.1
  ext
  · rw [post_mu_W]
    simp only [List.sum_nil, List.length_nil, Nat.cast_zero, add_zero, Pi.smul_apply,
      Pi.add_apply, smul_eq_mul]
    field_simp
  · simp [post]
  · rw [post_Lam, post_mu_W]
    simp only [msum2, List.map_nil, List.sum_nil, List.length_nil, Nat.cast_zero,
      add_zero, Matrix.sub_apply, Matrix.add_apply, Matrix.smul_apply, outer_apply,
      Pi.smul_apply, Pi.add_apply, smul_eq_mul]
    field_simp
  · simp [post]

lemma post_perm_W {d : ℕ} (p : NIWParams d) {D D' : List (Fin d → ℝ)}
    (h : D.Perm D') : post p D = post p D' := by
  have e1 : D.sum = D'.sum := h.sum_eq
  have e2 : msum2 D = msum2 D' := (h.map (fun x => outer x x)).sum_eq
  have e3 : D.length = D'.length := h.length_eq
  ext <;> simp only [post, e1, e2, e3]

/-- The posterior scale matrix after one observation, in rank-one-update
form. -/
lemma post_single_Lam {d : ℕ} {p : NIWParams d} (hp : Valid p) (x : Fin d → ℝ) :
    (post p [x]).Lam_0 =
      p.Lam_0 + (p.kappa_0 / (p.kappa_0 + 1)) • outer (x - p.mu_0) (x - p.mu_0) := by
  have hk := hp.1
  have hk1 : (0 : ℝ) < p.kappa_0 + 1 := by positivity
  ext i j
  simp only [post, msum2, List.map_cons, List.map_nil, List.sum_cons, List.sum_nil,
    List.length_cons, List.length_nil, Nat.cast_one, Nat.cast_zero, add_zero,
    Matrix.sub_apply, Matrix.add_apply, Matrix.smul_apply, outer_apply,
    Pi.smul_apply, Pi.add_apply, Pi.sub_apply, smul_eq_mul]
  field_simp
  ring

lemma post_post_W {d : ℕ} {p : NIWParams d} (hp : Valid p)
    (D1 D2 : List (Fin d → ℝ)) :
    post (post p D1) D2 = post p (D1 ++ D2) := by
  have hk := hp.1
  have h1 : (0 : ℝ) < p.kappa_0 + D1.length := by positivity
  have h2 : (0 : ℝ) < p.kappa_0 + D1.length + D2.length := by positivity
  ext
  · show ((((post p D1).kappa_0 + (D2.length : ℝ))⁻¹ •
      ((post p D1).kappa_0 • (post p D1).mu_0 + D2.sum)) _) = _
    simp only [post_kappa_W, post_mu_W, List.sum_append, List.length_append,
      Pi.smul_apply, Pi.add_apply, pi_list_sum_apply, List.map_append, smul_eq_mul]
    push_cast
    field_simp
    ring
  · simp only [post_kappa_W, List.length_append]
    push_cast
    ring
  · show ((post p D1).Lam_0 + msum2 D2 + (post p D1).kappa_0 •
      outer (post p D1).mu_0 (post p D1).mu_0 - _) _ _ = _
    simp only [post_kappa_W, post_mu_W, post_Lam, msum2, List.map_append, List.sum_append,
      List.length_append, Matrix.sub_apply, Matrix.add_apply, Matrix.smul_apply,
      outer_apply, Pi.smul_apply, Pi.add_apply, pi_list_sum_apply,
      matrix_list_sum_apply, smul_eq_mul]
    push_cast
    field_simp
    ring
  · simp only [post_nu_W, List.length_append]
    push_cast
    ring

/-- The joint heavy laws of the NIW family: Bayes master identity, evidence
positivity, predictive-evidence agreement on singletons, evidence recursion,
sequential chain, and permutation invariance. -/
lemma laws_W :
    (∀ {d : ℕ} {p : NIWParams d} (hp : Valid p) (D : List (Fin d → ℝ)) (mu : Fin d → ℝ) {Sig : Matrix (Fin d) (Fin d) ℝ} (hS : 0 < Sig.det), density (post p D) mu Sig = density p mu Sig * likelihood mu Sig D / evidence p D) ∧
    (∀ {d : ℕ} {p : NIWParams d} (hp : Valid p) (D : List (Fin d → ℝ)), 0 < evidence p D) ∧
    (∀ {d : ℕ} {p : NIWParams d} (hp : Valid p) (x : Fin d → ℝ), pred p x = evidence p [x]) ∧
    (∀ {d : ℕ} {p : NIWParams d} (hp : Valid p) (x : Fin d → ℝ) (T : List (Fin d → ℝ)), evidence p (x :: T) = pred p x * evidence (post p [x]) T) ∧
    (∀ {d : ℕ} {p : NIWParams d} (hp : Valid p) (D : List (Fin d → ℝ)), evidence p D = ∏ i : Fin D.length, pred (post p (D.take i.1)) (D.get i)) ∧
    (∀ {d : ℕ} (p : NIWParams d) {D D' : List (Fin d → ℝ)} (h : D.Perm D'), evidence p D = evidence p D') := by
  have density_pos_W : ∀ {d : ℕ} {p : NIWParams d} (hp : Valid p) (mu : Fin d → ℝ)
    {Sig : Matrix (Fin d) (Fin d) ℝ} (hS : 0 < Sig.det), 0 < density p mu Sig := by
    intro d p hp mu Sig hS
    obtain ⟨hk, hL, hn⟩ := hp
    have h1 := hL.det_pos
    have h2 := mgamma_pos (show ((d : ℝ) - 1) / 2 < p.nu_0 / 2 by linarith)
    delta density
    positivity
  have evidence_pos_W : ∀ {d : ℕ} {p : NIWParams d} (hp : Valid p) (D : List (Fin d → ℝ)), 0 < evidence p D := by
    intro d p hp D
    have h1 := (post_Lam_posdef hp D).det_pos
    have h2 := mgamma_pos (show ((d : ℝ) - 1) / 2 < p.nu_0 / 2 by linarith [hp.2.2])
    have h3 := mgamma_pos (show ((d : ℝ) - 1) / 2 < (post p D).nu_0 / 2 by
      have := (valid_post_W hp D).2.2; linarith)
    have h4 := hp.2.1.det_pos
    have hk := hp.1
    have hkn := (valid_post_W hp D).1
    delta evidence
    positivity
  have log_density_W : ∀ {d : ℕ} {p : NIWParams d} (hp : Valid p) (mu : Fin d → ℝ)
    {Sig : Matrix (Fin d) (Fin d) ℝ} (hS : 0 < Sig.det), log (density p mu Sig) =
      ((d : ℝ) / 2) * log p.kappa_0 + (p.nu_0 / 2) * log p.Lam_0.det -
        ((d : ℝ) / 2) * (log 2 + log π) - (p.nu_0 * d / 2) * log 2 -
        log (mgamma d (p.nu_0 / 2)) -
        ((p.nu_0 + d + 2) / 2) * log Sig.det -
        (Matrix.trace (Sig⁻¹ * p.Lam_0) + p.kappa_0 * quadForm Sig⁻¹ (mu - p.mu_0)) / 2 := by
    intro d p hp mu Sig hS
    obtain ⟨hk, hL, hn⟩ := hp
    have h1 := hL.det_pos
    have h2 := mgamma_pos (show ((d : ℝ) - 1) / 2 < p.nu_0 / 2 by linarith)
    delta density
    rw [
      log_mul' (by positivity) (by positivity),
      log_mul' (by positivity) (by positivity),
      Real.log_exp,
      Real.log_rpow hS,
      log_div' (by positivity) (by positivity),
      log_mul' (by positivity) (by positivity),
      log_mul' (by positivity) (by positivity),
      Real.log_rpow hk, Real.log_rpow h1]
    rw [log_mul' (by positivity) (by positivity),
      Real.log_rpow (by positivity), Real.log_rpow (by positivity),
      log_mul' (by positivity) (by positivity)]
    ring
  have log_evidence_W : ∀ {d : ℕ} {p : NIWParams d} (hp : Valid p)
    (D : List (Fin d → ℝ)), log (evidence p D) =
      log (mgamma d ((post p D).nu_0 / 2)) - log (mgamma d (p.nu_0 / 2)) +
        (p.nu_0 / 2) * log p.Lam_0.det -
        ((post p D).nu_0 / 2) * log (post p D).Lam_0.det +
        ((d : ℝ) / 2) * (log p.kappa_0 - log (post p D).kappa_0) -
        (((D.length : ℝ) * d) / 2) * log π := by
    intro d p hp D
    have h1 := (post_Lam_posdef hp D).det_pos
    have h2 := mgamma_pos (show ((d : ℝ) - 1) / 2 < p.nu_0 / 2 by linarith [hp.2.2])
    have h3 := mgamma_pos (show ((d : ℝ) - 1) / 2 < (post p D).nu_0 / 2 by
      have := (valid_post_W hp D).2.2; linarith)
    have h4 := hp.2.1.det_pos
    have hk := hp.1
    have hkn := (valid_post_W hp D).1
    delta evidence
    rw [
      log_mul' (by positivity) (by positivity),
      log_mul' (by positivity) (by positivity),
      log_mul' (by positivity) (by positivity),
      log_div' h3 h2,
      log_div' (by positivity) (by positivity),
      Real.log_rpow h4, Real.log_rpow h1,
      Real.log_rpow (by positivity), Real.log_rpow (by positivity),
      log_div' hk hkn]
    ring
  have master_W : ∀ {d : ℕ} {p : NIWParams d} (hp : Valid p) (D : List (Fin d → ℝ))
    (mu : Fin d → ℝ) {Sig : Matrix (Fin d) (Fin d) ℝ} (hS : 0 < Sig.det), density (post p D) mu Sig =
      density p mu Sig * likelihood mu Sig D / evidence p D := by
    intro d p hp D mu Sig hS
    have hd := density_pos_W hp mu hS
    have hl := likelihood_pos_W mu hS D
    have he := evidence_pos_W hp D
    apply eq_of_log_eq (density_pos_W (valid_post_W hp D) mu hS)
      (div_pos (mul_pos hd hl) he)
    rw [log_div' (mul_pos hd hl) he, log_mul' hd hl,
      log_density_W (valid_post_W hp D) mu hS, log_density_W hp mu hS,
      log_likelihood_W mu hS D, log_evidence_W hp D,
      exponent_identity_W hp D mu Sig]
    simp only [post_kappa_W, post_nu_W]
    ring
  have evidence_nil_W : ∀ {d : ℕ} {p : NIWParams d} (hp : Valid p), evidence p [] = 1 := by
    intro d p hp
    have h2 := mgamma_pos (show ((d : ℝ) - 1) / 2 < p.nu_0 / 2 by linarith [hp.2.2])
    have h4 := hp.2.1.det_pos
    have hk := hp.1
    delta evidence
    rw [ post_nil_W hp]
    simp only [List.length_nil, Nat.cast_zero, zero_mul, neg_zero, zero_div,
      Real.rpow_zero]
    rw [div_self h2.ne', div_self (by positivity : p.Lam_0.det ^ (p.nu_0 / 2) ≠ 0),
      div_self hk.ne', Real.one_rpow]
    norm_num
  have pred_eq_evidence_single_W : ∀ {d : ℕ} {p : NIWParams d} (hp : Valid p)
    (x : Fin d → ℝ), pred p x = evidence p [x] := by
    intro d p hp x
    delta pred evidence
    rw [ post_single_Lam hp x, post_kappa_W, post_nu_W]
    simp only [List.length_cons, List.length_nil, Nat.cast_one, Nat.cast_zero,
      zero_add, one_mul]
  have evidence_cons_W : ∀ {d : ℕ} {p : NIWParams d} (hp : Valid p) (x : Fin d → ℝ)
    (T : List (Fin d → ℝ)), evidence p (x :: T) = pred p x * evidence (post p [x]) T := by
    intro d p hp x T
    rw [pred_eq_evidence_single_W hp x]
    have h1 := evidence_pos_W hp (x :: T)
    have h2 := evidence_pos_W hp [x]
    have h3 := evidence_pos_W (valid_post_W hp [x]) T
    apply eq_of_log_eq h1 (mul_pos h2 h3)
    rw [log_mul' h2 h3, log_evidence_W hp (x :: T), log_evidence_W hp [x],
      log_evidence_W (valid_post_W hp [x]) T,
      post_post_W hp [x] T]
    simp only [List.cons_append, List.nil_append, post_kappa_W, post_nu_W,
      List.length_cons, List.length_nil]
    push_cast
    ring
  have evidence_perm_W : ∀ {d : ℕ} (p : NIWParams d) {D D' : List (Fin d → ℝ)}
    (h : D.Perm D'), evidence p D = evidence p D' := by
    intro d p D D' h
    delta evidence
    rw [ post_perm_W p h, h.length_eq]
  have evidence_chain_W : ∀ {d : ℕ} {p : NIWParams d} (hp : Valid p)
    (D : List (Fin d → ℝ)), evidence p D = ∏ i : Fin D.length, pred (post p (D.take i.1)) (D.get i) := by
    intro d p hp D
    induction D generalizing p with
    | nil => simp [evidence_nil_W hp]
    | cons x T ih =>
        rw [evidence_cons_W hp x T, ih (valid_post_W hp [x])]
        simp only [List.length_cons]
        rw [Fin.prod_univ_succ]
        congr 1
        · simp [post_nil_W hp]
        · apply Finset.prod_congr rfl
          intro i _
          rw [post_post_W hp [x] (T.take i.1)]
          simp only [List.cons_append, List.nil_append, Fin.val_succ, List.take_succ_cons]
          rfl
  exact ⟨master_W, evidence_pos_W, pred_eq_evidence_single_W, evidence_cons_W, evidence_chain_W, evidence_perm_W⟩

end NIW

/-! ## The Inverse-Wishart (InvWish) variant

Modelled from the spec: known mean vector, unknown covariance matrix,
parameterized by `(nu, Psi, mu)`. -/

/-- Hyperparameters of the Inverse-Wishart prior over a covariance, with
known observation mean `mu`. -/
@[ext] structure InvWishParams (d : ℕ) where
  nu : ℝ
  Psi : Matrix (Fin d) (Fin d) ℝ
  mu : Fin d → ℝ

namespace InvWish

/-- Modelled from the spec: hyperparameter validity for the InvWish family. -/
def Valid {d : ℕ} (w : InvWishParams d) : Prop :=
  w.Psi.PosDef ∧ (d : ℝ) - 1 < w.nu

/-- Modelled from the spec: the Inverse-Wishart prior density over the
covariance matrix. -/
def density {d : ℕ} (w : InvWishParams d) (Sig : Matrix (Fin d) (Fin d) ℝ) : ℝ :=
  w.Psi.det ^ (w.nu / 2) / (2 ^ (w.nu * d / 2) * mgamma d (w.nu / 2)) *
    Sig.det ^ (-((w.nu + d + 1) / 2)) *
    exp (-(Matrix.trace (Sig⁻¹ * w.Psi)) / 2)

/-- Modelled from the spec: the multivariate Gaussian single-observation
likelihood with known mean. -/
def like1 {d : ℕ} (w : InvWishParams d) (Sig : Matrix (Fin d) (Fin d) ℝ)
    (x : Fin d → ℝ) : ℝ :=
  (2 * π) ^ (-(d : ℝ) / 2) * Sig.det ^ (-(1 : ℝ) / 2) *
    exp (-(quadForm Sig⁻¹ (x - w.mu)) / 2)

/-- Modelled from the spec: the product likelihood of a data set. -/
def likelihood {d : ℕ} (w : InvWishParams d) (Sig : Matrix (Fin d) (Fin d) ℝ)
    (D : List (Fin d → ℝ)) : ℝ :=
  (D.map (like1 w Sig)).prod

/-- Modelled from the spec: the conjugate posterior update, accumulating
outer products of deviations from the known mean into the scale matrix. -/
def post {d : ℕ} (w : InvWishParams d) (D : List (Fin d → ℝ)) : InvWishParams d where
  nu := w.nu + D.length
  Psi := w.Psi + (D.map (fun x => outer (x - w.mu) (x - w.mu))).sum
  mu := w.mu

/-- Modelled from the spec: the closed-form marginal evidence of `D`. -/
def evidence {d : ℕ} (w : InvWishParams d) (D : List (Fin d → ℝ)) : ℝ :=
  mgamma d ((post w D).nu / 2) / mgamma d (w.nu / 2) *
    (w.Psi.det ^ (w.nu / 2) / (post w D).Psi.det ^ ((post w D).nu / 2)) *
    π ^ (-((D.length : ℝ) * d) / 2)

/-- Modelled from the spec: the multivariate Student-t prior predictive
density in rank-one-update closed form. -/
def pred {d : ℕ} (w : InvWishParams d) (x : Fin d → ℝ) : ℝ :=
  mgamma d ((w.nu + 1) / 2) / mgamma d (w.nu / 2) *
    (w.Psi.det ^ (w.nu / 2) /
      (w.Psi + outer (x - w.mu) (x - w.mu)).det ^ ((w.nu + 1) / 2)) *
    π ^ (-(d : ℝ) / 2)

@[simp] lemma post_nu_IW {d : ℕ} (w : InvWishParams d) (D : List (Fin d → ℝ)) :
    (post w D).nu = w.nu + D.length := rfl

@[simp] lemma post_mu_IW {d : ℕ} (w : InvWishParams d) (D : List (Fin d → ℝ)) :
    (post w D).mu = w.mu := rfl

lemma post_Psi {d : ℕ} (w : InvWishParams d) (D : List (Fin d → ℝ)) :
    (post w D).Psi = w.Psi + (D.map (fun x => outer (x - w.mu) (x - w.mu))).sum := rfl

lemma post_Psi_posdef {d : ℕ} {w : InvWishParams d} (hw : Valid w)
    (D : List (Fin d → ℝ)) : (post w D).Psi.PosDef := by
  rw [post_Psi]
  refine hw.1.add_posSemidef ?_
  refine posSemidef_list_sum _ (fun M hM => ?_)
  obtain ⟨x, _, rfl⟩ := List.mem_map.mp hM
  exact posSemidef_outer_self _

lemma valid_post_IW {d : ℕ} {w : InvWishParams d} (hw : Valid w)
    (D : List (Fin d → ℝ)) : Valid (post w D) := by
  refine ⟨post_Psi_posdef hw D, ?_⟩
  rw [post_nu_IW]
  have : (0 : ℝ) ≤ D.length := by positivity
  linarith [hw.2]

/-- The posterior trace exponent accumulates the likelihood quadratic forms. -/
lemma exponent_identity_IW {d : ℕ} (w : InvWishParams d) (D : List (Fin d → ℝ))
    (Sig : Matrix (Fin d) (Fin d) ℝ) :
    Matrix.trace (Sig⁻¹ * (post w D).Psi) =
      Matrix.trace (Sig⁻¹ * w.Psi) + qsum Sig⁻¹ w.mu D := by
  rw [post_Psi, Matrix.mul_add, Matrix.trace_add, mul_list_sum, trace_list_sum]
  simp only [List.map_map, Function.comp_def, trace_mul_outer]
  simp only [qsum, quadForm]

lemma likelihood_eq_NIW {d : ℕ} (w : InvWishParams d)
    (Sig : Matrix (Fin d) (Fin d) ℝ) (D : List (Fin d → ℝ)) :
    likelihood w Sig D = NIW.likelihood w.mu Sig D := rfl

end InvWish

namespace InvWish

lemma post_nil_IW {d : ℕ} (w : InvWishParams d) : post w [] = w := by
  ext <;> simp [post]

lemma post_post_IW {d : ℕ} (w : InvWishParams d) (D1 D2 : List (Fin d → ℝ)) :
    post (post w D1) D2 = post w (D1 ++ D2) := by
  ext
  · simp only [post_nu_IW, List.length_append]
    push_cast
    ring
  · show ((post w D1).Psi +
      (D2.map (fun x => outer (x - (post w D1).mu) (x - (post w D1).mu))).sum) _ _ = _
    rw [post_mu_IW, post_Psi, post_Psi, List.map_append, List.sum_append, add_assoc]
  · rfl

lemma post_perm_IW {d : ℕ} (w : InvWishParams d) {D D' : List (Fin d → ℝ)}
    (h : D.Perm D') : post w D = post w D' := by
  have e2 : (D.map (fun x => outer (x - w.mu) (x - w.mu))).sum =
      (D'.map (fun x => outer (x - w.mu) (x - w.mu))).sum :=
    (h.map _).sum_eq
  ext <;> simp only [post, e2, h.length_eq]

/-- The joint heavy laws of the InvWish family: Bayes master identity,
evidence positivity, predictive-evidence agreement on singletons, evidence
recursion, sequential chain, and permutation invariance. -/
lemma laws_IW :
    (∀ {d : ℕ} {w : InvWishParams d} (hw : Valid w) (D : List (Fin d → ℝ)) {Sig : Matrix (Fin d) (Fin d) ℝ} (hS : 0 < Sig.det), density (post w D) Sig = density w Sig * likelihood w Sig D / evidence w D) ∧
    (∀ {d : ℕ} {w : InvWishParams d} (hw : Valid w) (D : List (Fin d → ℝ)), 0 < evidence w D) ∧
    (∀ {d : ℕ} {w : InvWishParams d} (x : Fin d → ℝ), pred w x = evidence w [x]) ∧
    (∀ {d : ℕ} {w : InvWishParams d} (hw : Valid w) (x : Fin d → ℝ) (T : List (Fin d → ℝ)), evidence w (x :: T) = pred w x * evidence (post w [x]) T) ∧
    (∀ {d : ℕ} {w : InvWishParams d} (hw : Valid w) (D : List (Fin d → ℝ)), evidence w D = ∏ i : Fin D.length, pred (post w (D.take i.1)) (D.get i)) ∧
    (∀ {d : ℕ} (w : InvWishParams d) {D D' : List (Fin d → ℝ)} (h : D.Perm D'), evidence w D = evidence w D') := by
  have density_pos_IW : ∀ {d : ℕ} {w : InvWishParams d} (hw : Valid w)
    {Sig : Matrix (Fin d) (Fin d) ℝ} (hS : 0 < Sig.det), 0 < density w Sig := by
    intro d w hw Sig hS
    obtain ⟨hP, hn⟩ := hw
    have h1 := hP.det_pos
    have h2 := mgamma_pos (show ((d : ℝ) - 1) / 2 < w.nu / 2 by linarith)
    delta density
    positivity
  have evidence_pos_IW : ∀ {d : ℕ} {w : InvWishParams d} (hw : Valid w)
    (D : List (Fin d → ℝ)), 0 < evidence w D := by
    intro d w hw D
    have h1 := (post_Psi_posdef hw D).det_pos
    have h2 := mgamma_pos (show ((d : ℝ) - 1) / 2 < w.nu / 2 by linarith [hw.2])
    have h3 := mgamma_pos (show ((d : ℝ) - 1) / 2 < (post w D).nu / 2 by
      have := (valid_post_IW hw D).2; linarith)
    have h4 := hw.1.det_pos
    delta evidence
    positivity
  have log_density_IW : ∀ {d : ℕ} {w : InvWishParams d} (hw : Valid w)
    {Sig : Matrix (Fin d) (Fin d) ℝ} (hS : 0 < Sig.det), log (density w Sig) =
      (w.nu / 2) * log w.Psi.det - (w.nu * d / 2) * log 2 -
        log (mgamma d (w.nu / 2)) - ((w.nu + d + 1) / 2) * log Sig.det -
        Matrix.trace (Sig⁻¹ * w.Psi) / 2 := by
    intro d w hw Sig hS
    obtain ⟨hP, hn⟩ := hw
    have h1 := hP.det_pos
    have h2 := mgamma_pos (show ((d : ℝ) - 1) / 2 < w.nu / 2 by linarith)
    delta density
    rw [
      log_mul' (by positivity) (by positivity),
      log_mul' (by positivity) (by positivity),
      Real.log_exp,
      Real.log_rpow hS,
      log_div' (by positivity) (by positivity),
      Real.log_rpow h1,
      log_mul' (by positivity) (by positivity),
      Real.log_rpow (by positivity)]
    ring
  have log_evidence_IW : ∀ {d : ℕ} {w : InvWishParams d} (hw : Valid w)
    (D : List (Fin d → ℝ)), log (evidence w D) =
      log (mgamma d ((post w D).nu / 2)) - log (mgamma d (w.nu / 2)) +
        (w.nu / 2) * log w.Psi.det - ((post w D).nu / 2) * log (post w D).Psi.det -
        (((D.length : ℝ) * d) / 2) * log π := by
    intro d w hw D
    have h1 := (post_Psi_posdef hw D).det_pos
    have h2 := mgamma_pos (show ((d : ℝ) - 1) / 2 < w.nu / 2 by linarith [hw.2])
    have h3 := mgamma_pos (show ((d : ℝ) - 1) / 2 < (post w D).nu / 2 by
      have := (valid_post_IW hw D).2; linarith)
    have h4 := hw.1.det_pos
    delta evidence
    rw [
      log_mul' (by positivity) (by positivity),
      log_mul' (by positivity) (by positivity),
      log_div' h3 h2,
      log_div' (by positivity) (by positivity),
      Real.log_rpow h4, Real.log_rpow h1,
      Real.log_rpow (by positivity)]
    ring
  have master_IW : ∀ {d : ℕ} {w : InvWishParams d} (hw : Valid w) (D : List (Fin d → ℝ))
    {Sig : Matrix (Fin d) (Fin d) ℝ} (hS : 0 < Sig.det), density (post w D) Sig = density w Sig * likelihood w Sig D / evidence w D := by
    intro d w hw D Sig hS
    have hd := density_pos_IW hw hS
    have hl : 0 < likelihood w Sig D := by
      rw [likelihood_eq_NIW]
      exact NIW.likelihood_pos_W w.mu hS D
    have he := evidence_pos_IW hw D
    apply eq_of_log_eq (density_pos_IW (valid_post_IW hw D) hS) (div_pos (mul_pos hd hl) he)
    rw [log_div' (mul_pos hd hl) he, log_mul' hd hl,
      log_density_IW (valid_post_IW hw D) hS, log_density_IW hw hS,
      likelihood_eq_NIW, NIW.log_likelihood_W w.mu hS D,
      log_evidence_IW hw D,
      exponent_identity_IW w D Sig]
    simp only [post_nu_IW, post_mu_IW]
    ring
  have evidence_nil_IW : ∀ {d : ℕ} {w : InvWishParams d} (hw : Valid w), evidence w [] = 1 := by
    intro d w hw
    have h2 := mgamma_pos (show ((d : ℝ) - 1) / 2 < w.nu / 2 by linarith [hw.2])
    have h4 := hw.1.det_pos
    delta evidence
    rw [ post_nil_IW]
    simp only [List.length_nil, Nat.cast_zero, zero_mul, neg_zero, zero_div,
      Real.rpow_zero]
    rw [div_self h2.ne', div_self (by positivity : w.Psi.det ^ (w.nu / 2) ≠ 0)]
    norm_num
  have pred_eq_evidence_single_IW : ∀ {d : ℕ} {w : InvWishParams d} (x : Fin d → ℝ), pred w x = evidence w [x] := by
    intro d w x
    delta pred evidence
    rw [ post_Psi, post_nu_IW]
    simp only [List.map_cons, List.map_nil, List.sum_cons, List.sum_nil, add_zero,
      List.length_cons, List.length_nil, Nat.cast_one, Nat.cast_zero, zero_add, one_mul]
  have evidence_cons_IW : ∀ {d : ℕ} {w : InvWishParams d} (hw : Valid w) (x : Fin d → ℝ)
    (T : List (Fin d → ℝ)), evidence w (x :: T) = pred w x * evidence (post w [x]) T := by
    intro d w hw x T
    rw [pred_eq_evidence_single_IW x]
    have h1 := evidence_pos_IW hw (x :: T)
    have h2 := evidence_pos_IW hw [x]
    have h3 := evidence_pos_IW (valid_post_IW hw [x]) T
    apply eq_of_log_eq h1 (mul_pos h2 h3)
    rw [log_mul' h2 h3, log_evidence_IW hw (x :: T), log_evidence_IW hw [x],
      log_evidence_IW (valid_post_IW hw [x]) T,
      post_post_IW w [x] T]
    simp only [List.cons_append, List.nil_append, post_nu_IW, List.length_cons,
      List.length_nil]
    push_cast
    ring
  have evidence_perm_IW : ∀ {d : ℕ} (w : InvWishParams d) {D D' : List (Fin d → ℝ)}
    (h : D.Perm D'), evidence w D = evidence w D' := by
    intro d w D D' h
    delta evidence
    rw [ post_perm_IW w h, h.length_eq]
  have evidence_chain_IW : ∀ {d : ℕ} {w : InvWishParams d} (hw : Valid w)
    (D : List (Fin d → ℝ)), evidence w D = ∏ i : Fin D.length, pred (post w (D.take i.1)) (D.get i) := by
    intro d w hw D
    induction D generalizing w with
    | nil => simp [evidence_nil_IW hw]
    | cons x T ih =>
        rw [evidence_cons_IW hw x T, ih (valid_post_IW hw [x])]
        simp only [List.length_cons]
        rw [Fin.prod_univ_succ]
        congr 1
        · simp [post_nil_IW]
        · apply Finset.prod_congr rfl
          intro i _
          rw [post_post_IW w [x] (T.take i.1)]
          simp only [List.cons_append, List.nil_append, Fin.val_succ, List.take_succ_cons]
          rfl
  exact ⟨master_IW, evidence_pos_IW, pred_eq_evidence_single_IW, evidence_cons_IW, evidence_chain_IW, evidence_perm_IW⟩

end InvWish

/-! ## Integration toolkit: inverse-Gamma and Gaussian integrals -/

lemma pow_div_factorial_le_exp {t : ℝ} (ht : 0 ≤ t) (k : ℕ) :
    t ^ k / k.factorial ≤ exp t := by
  calc t ^ k / (k.factorial : ℝ) ≤
      ∑ i ∈ Finset.range (k + 1), t ^ i / (i.factorial : ℝ) :=
        @Finset.single_le_sum ℕ ℝ _ (fun i => t ^ i / (i.factorial : ℝ))
          (Finset.range (k + 1)) (fun i _ => by positivity) k
          (Finset.self_mem_range_succ k)
    _ ≤ exp t := Real.sum_le_exp_of_nonneg ht _

/-- The integral toolkit in one statement: integrability of the
inverse-Gamma kernel, its closed-form integral, and the translated Gaussian
integral. -/
lemma integral_toolkit :
    (∀ {s c : ℝ} (hs : 1 < s) (hc : 0 < c), IntegrableOn (fun v : ℝ => v ^ (-s) * exp (-(c / v))) (Ioi 0)) ∧
    (∀ {a c : ℝ} (ha : 0 < a) (hc : 0 < c), ∫ v in Ioi (0 : ℝ), v ^ (-(a + 1)) * exp (-(c / v)) = Gamma a / c ^ a) ∧
    (∀ (b m : ℝ), ∫ x : ℝ, exp (-(b * (x - m) ^ 2)) = Real.sqrt (π / b)) := by
  have invGamma_aesm : ∀ {s c : ℝ} (S : Set ℝ) (hS : MeasurableSet S) (hsub : S ⊆ Ioi 0), AEStronglyMeasurable (fun v : ℝ => v ^ (-s) * exp (-(c / v)))
      (volume.restrict S) := by
    intro s c S hS hsub
    apply ContinuousOn.aestronglyMeasurable ?_ hS
    apply ContinuousOn.mul
    · apply ContinuousOn.rpow_const continuousOn_id
      intro x hx
      exact Or.inl (ne_of_gt (hsub hx))
    · apply Real.continuous_exp.comp_continuousOn
      apply ContinuousOn.neg
      exact continuousOn_const.div continuousOn_id (fun x hx => ne_of_gt (hsub hx))
  have integrableOn_inv_gamma : ∀ {s c : ℝ} (hs : 1 < s) (hc : 0 < c), IntegrableOn (fun v : ℝ => v ^ (-s) * exp (-(c / v))) (Ioi 0) := by
    intro s c hs hc
    have hu : Ioc (0 : ℝ) 1 ∪ Ioi (1 : ℝ) = Ioi 0 := Ioc_union_Ioi_eq_Ioi zero_le_one
    rw [← hu, integrableOn_union]
    constructor
    · have hk : s ≤ (⌈s⌉₊ : ℝ) := Nat.le_ceil s
      have hgint : IntegrableOn (fun _ : ℝ => (⌈s⌉₊.factorial : ℝ) / c ^ ⌈s⌉₊)
          (Ioc (0 : ℝ) 1) := integrableOn_const.mpr (Or.inr measure_Ioc_lt_top)
      refine Integrable.mono' hgint
        (invGamma_aesm _ measurableSet_Ioc (fun x hx => hx.1)) ?_
      filter_upwards [ae_restrict_mem measurableSet_Ioc] with x hx
      obtain ⟨hx0, hx1⟩ := hx
      have hcx : (0 : ℝ) < c / x := by positivity
      have h1 : (c / x) ^ ⌈s⌉₊ / (⌈s⌉₊.factorial : ℝ) ≤ exp (c / x) :=
        pow_div_factorial_le_exp hcx.le _
      have h2 : exp (-(c / x)) ≤ (⌈s⌉₊.factorial : ℝ) / (c / x) ^ ⌈s⌉₊ := by
        rw [Real.exp_neg]
        have hpos : (0 : ℝ) < (c / x) ^ ⌈s⌉₊ / (⌈s⌉₊.factorial : ℝ) := by positivity
        calc (exp (c / x))⁻¹ ≤ ((c / x) ^ ⌈s⌉₊ / (⌈s⌉₊.factorial : ℝ))⁻¹ := by
              apply inv_anti₀ hpos h1
          _ = (⌈s⌉₊.factorial : ℝ) / (c / x) ^ ⌈s⌉₊ := by rw [inv_div]
      rw [Real.norm_eq_abs, abs_mul, abs_of_nonneg (Real.rpow_nonneg hx0.le _),
        abs_of_nonneg (exp_pos _).le]
      calc x ^ (-s) * exp (-(c / x)) ≤
          x ^ (-s) * ((⌈s⌉₊.factorial : ℝ) / (c / x) ^ ⌈s⌉₊) :=
            mul_le_mul_of_nonneg_left h2 (Real.rpow_nonneg hx0.le _)
        _ = ((⌈s⌉₊.factorial : ℝ) / c ^ ⌈s⌉₊) * (x ^ (-s) * x ^ (⌈s⌉₊ : ℝ)) := by
            rw [div_pow, ← Real.rpow_natCast x ⌈s⌉₊]
            have hx0' : x ^ (⌈s⌉₊ : ℝ) ≠ 0 := by positivity
            have hc' : c ^ ⌈s⌉₊ ≠ 0 := by positivity
            field_simp
            ring
        _ ≤ ((⌈s⌉₊.factorial : ℝ) / c ^ ⌈s⌉₊) * 1 := by
            apply mul_le_mul_of_nonneg_left ?_ (by positivity)
            rw [← Real.rpow_add hx0]
            exact Real.rpow_le_one hx0.le hx1 (by linarith)
        _ = (⌈s⌉₊.factorial : ℝ) / c ^ ⌈s⌉₊ := mul_one _
    · refine Integrable.mono' (integrableOn_Ioi_rpow_of_lt (by linarith : -s < -1) one_pos)
        (invGamma_aesm _ measurableSet_Ioi (fun x hx => lt_trans one_pos hx)) ?_
      filter_upwards [ae_restrict_mem measurableSet_Ioi] with x hx
      have hx0 : (0 : ℝ) < x := lt_trans one_pos hx
      rw [Real.norm_eq_abs, abs_mul, abs_of_nonneg (Real.rpow_nonneg hx0.le _),
        abs_of_nonneg (exp_pos _).le]
      calc x ^ (-s) * exp (-(c / x)) ≤ x ^ (-s) * 1 := by
            apply mul_le_mul_of_nonneg_left ?_ (Real.rpow_nonneg hx0.le _)
            rw [show (1 : ℝ) = exp 0 by simp]
            apply Real.exp_le_exp.mpr
            have h3 : (0 : ℝ) < c / x := by positivity
            linarith
        _ = x ^ (-s) := mul_one _
  have integral_inv_gamma : ∀ {a c : ℝ} (ha : 0 < a) (hc : 0 < c), ∫ v in Ioi (0 : ℝ), v ^ (-(a + 1)) * exp (-(c / v)) = Gamma a / c ^ a := by
    intro a c ha hc
    have key := integral_comp_rpow_Ioi (fun y => y ^ (a - 1) * exp (-(c * y)))
      (show (-1 : ℝ) ≠ 0 by norm_num)
    calc ∫ v in Ioi (0 : ℝ), v ^ (-(a + 1)) * exp (-(c / v))
        = ∫ x in Ioi (0 : ℝ), (|(-1 : ℝ)| * x ^ ((-1 : ℝ) - 1)) •
            ((x ^ (-1 : ℝ)) ^ (a - 1) * exp (-(c * x ^ (-1 : ℝ)))) := by
          refine (setIntegral_congr_fun measurableSet_Ioi (fun x hx => ?_)).symm
          have hx0 : (0 : ℝ) < x := hx
          rw [Real.rpow_neg_one, Real.inv_rpow hx0.le, ← Real.rpow_neg hx0.le,
            smul_eq_mul]
          rw [show ((-1 : ℝ) - 1) = (-2 : ℝ) by norm_num, abs_neg, abs_one, one_mul,
            ← div_eq_mul_inv c x]
          rw [show x ^ (-2 : ℝ) * (x ^ (-(a - 1)) * exp (-(c / x))) =
            (x ^ (-2 : ℝ) * x ^ (-(a - 1))) * exp (-(c / x)) by ring,
            ← Real.rpow_add hx0,
            show (-2 : ℝ) + -(a - 1) = -(a + 1) by ring]
      _ = ∫ y in Ioi (0 : ℝ), y ^ (a - 1) * exp (-(c * y)) := key
      _ = (1 / c) ^ a * Gamma a := Real.integral_rpow_mul_exp_neg_mul_Ioi ha hc
      _ = Gamma a / c ^ a := by
          rw [one_div, Real.inv_rpow hc.le]
          field_simp
  have integral_gaussian_shift : ∀ (b m : ℝ), ∫ x : ℝ, exp (-(b * (x - m) ^ 2)) = Real.sqrt (π / b) := by
    intro b m
    rw [← integral_gaussian b]
    calc ∫ x : ℝ, exp (-(b * (x - m) ^ 2))
        = ∫ x : ℝ, exp (-b * (x - m) ^ 2) := by
          congr 1
          funext x
          congr 1
          ring
      _ = ∫ x : ℝ, exp (-b * x ^ 2) :=
          integral_sub_right_eq_self (fun x : ℝ => exp (-b * x ^ 2)) m
  exact ⟨integrableOn_inv_gamma, integral_inv_gamma, integral_gaussian_shift⟩

/-! ## The collapsed Gibbs assignment weights

Modelled from the spec: the sampler consults a prior family only through its
conjugate posterior update and its predictive density, so the assignment step
is stated over that interface. -/

/-- Modelled from the spec: the two operations of a conjugate prior family
that the collapsed Gibbs sampler uses. -/
structure PriorOps (P : Type) where
  post : P → List ℝ → P
  pred : P → ℝ → ℝ

/-- Modelled from the spec: the unnormalized assignment weights of one
collapsed Gibbs step for observation `x`: for each existing cluster `c` with
`n_c` members the weight `n_c * posterior_of_cluster_c.predictive(x)`, and
last the new-cluster weight `alpha * prior.predictive(x)`. -/
def gibbsWeights {P : Type} (F : PriorOps P) (alpha : ℝ) (prior : P)
    (clusters : List (List ℝ)) (x : ℝ) : List ℝ :=
  clusters.map (fun c => (c.length : ℝ) * F.pred (F.post prior c) x) ++
    [alpha * F.pred prior x]

/-! ## Method calls as state passing

Modelled from the spec: a `posterior(D)` method call returns a fresh
instance; the receiver's state after the call is paired with the result. -/

/-- Modelled from the spec: the NIX `post` call as (receiver after, result). -/
def NIX.postCall (p : NIXParams) (D : List ℝ) : NIXParams × NIXParams :=
  (p, NIX.post p D)

/-- Modelled from the spec: the NIG `post` call as (receiver after, result). -/
def NIG.postCall (q : NIGParams) (D : List ℝ) : NIGParams × NIGParams :=
  (q, NIG.post q D)

/-- Modelled from the spec: the InvGamma `post` call as (receiver after,
result). -/
def InvGamma.postCall (g : InvGammaParams) (D : List ℝ) :
    InvGammaParams × InvGammaParams :=
  (g, InvGamma.post g D)

/-- Modelled from the spec: the Gaussian-known-variance `post` call as
(receiver after, result). -/
def GaussianMeanKnownVariance.postCall (p : GaussianMeanKnownVarianceParams)
    (D : List ℝ) :
    GaussianMeanKnownVarianceParams × GaussianMeanKnownVarianceParams :=
  (p, GaussianMeanKnownVariance.post p D)

/-- Modelled from the spec: the NIW `post` call as (receiver after, result). -/
def NIW.postCall {d : ℕ} (p : NIWParams d) (D : List (Fin d → ℝ)) :
    NIWParams d × NIWParams d :=
  (p, NIW.post p D)

/-- Modelled from the spec: the InvWish `post` call as (receiver after,
result). -/
def InvWish.postCall {d : ℕ} (w : InvWishParams d) (D : List (Fin d → ℝ)) :
    InvWishParams d × InvWishParams d :=
  (w, InvWish.post w D)

/-! ## Scalar or sequence observation arguments

Modelled from the spec: the public operations coerce their observation
argument with `numpy.atleast_1d`, so a scalar behaves as the one-element
sequence. -/

/-- Modelled from the spec: an observation argument, a scalar or a sequence. -/
inductive Obs where
  | scalar : ℝ → Obs
  | seq : List ℝ → Obs

/-- Modelled from the spec: the `atleast_1d` coercion of the argument. -/
def atleast1d : Obs → List ℝ
  | Obs.scalar x => [x]
  | Obs.seq D => D

/-- Modelled from the spec: a posterior-update call on a scalar-or-sequence
argument, for any prior family with update operation `post`. -/
def postArg {P : Type} (post : P → List ℝ → P) (p : P) (a : Obs) : P :=
  post p (atleast1d a)

/-- Modelled from the spec: an evidence call on a scalar-or-sequence
argument, for any prior family with evidence operation `evid`. -/
def evidenceArg {P : Type} (evid : P → List ℝ → ℝ) (p : P) (a : Obs) : ℝ :=
  evid p (atleast1d a)

/-- Modelled from the spec: a predictive-density call applied elementwise to
a scalar-or-sequence argument. -/
def predArg (pred : ℝ → ℝ) : Obs → Obs
  | Obs.scalar x => Obs.scalar (pred x)
  | Obs.seq D => Obs.seq (D.map pred)

/-! ## The claims -/

/-- C1: for every conjugate prior family variant, for all parameters and all
observation sequences D, the density of the instance returned by `post D`
equals `density * likelihood / evidence`. -/
theorem claim_C1_posterior_density_law :
    (∀ p : NIXParams, NIX.Valid p → ∀ (D : List ℝ) (mu var : ℝ), 0 < var →
      NIX.density (NIX.post p D) mu var =
        NIX.density p mu var * NIX.likelihood mu var D / NIX.evidence p D) ∧
    (∀ q : NIGParams, NIG.Valid q → ∀ (D : List ℝ) (mu var : ℝ), 0 < var →
      NIG.density (NIG.post q D) mu var =
        NIG.density q mu var * NIG.likelihood mu var D / NIG.evidence q D) ∧
    (∀ g : InvGammaParams, InvGamma.Valid g → ∀ (D : List ℝ) (var : ℝ),
      0 < var →
      InvGamma.density (InvGamma.post g D) var =
        InvGamma.density g var * InvGamma.likelihood g var D /
          InvGamma.evidence g D) ∧
    (∀ p : GaussianMeanKnownVarianceParams, GaussianMeanKnownVariance.Valid p →
      ∀ (D : List ℝ) (mu : ℝ),
      GaussianMeanKnownVariance.density (GaussianMeanKnownVariance.post p D) mu =
        GaussianMeanKnownVariance.density p mu *
          GaussianMeanKnownVariance.likelihood p mu D /
          GaussianMeanKnownVariance.evidence p D) ∧
    (∀ (d : ℕ) (p : NIWParams d), NIW.Valid p → ∀ (D : List (Fin d → ℝ))
      (mu : Fin d → ℝ) (Sig : Matrix (Fin d) (Fin d) ℝ), 0 < Sig.det →
      NIW.density (NIW.post p D) mu Sig =
        NIW.density p mu Sig * NIW.likelihood mu Sig D / NIW.evidence p D) ∧
    (∀ (d : ℕ) (w : InvWishParams d), InvWish.Valid w →
      ∀ (D : List (Fin d → ℝ)) (Sig : Matrix (Fin d) (Fin d) ℝ), 0 < Sig.det →
      InvWish.density (InvWish.post w D) Sig =
        InvWish.density w Sig * InvWish.likelihood w Sig D /
          InvWish.evidence w D) :=
  ⟨fun _ hp D mu _ hv => NIX.laws_X.1 hp D mu hv,
   fun _ hq D mu _ hv => NIG.laws_G.1 hq D mu hv,
   fun _ hg D _ hv => InvGamma.laws_IG.1 hg D hv,
   fun _ hp D mu => GaussianMeanKnownVariance.laws_K.1 hp D mu,
   fun _ _ hp D mu _ hS => NIW.laws_W.1 hp D mu hS,
   fun _ _ hw D _ hS => InvWish.laws_IW.1 hw D hS⟩

/-- C1 witness: the NIX posterior density law at a concrete instance. -/
theorem claim_C1_posterior_density_law_witness :
    NIX.density (NIX.post ⟨0, 2, 1, 3⟩ [1, 2]) 0 1 =
      NIX.density ⟨0, 2, 1, 3⟩ 0 1 * NIX.likelihood 0 1 [1, 2] /
        NIX.evidence ⟨0, 2, 1, 3⟩ [1, 2] :=
  claim_C1_posterior_density_law.1 ⟨0, 2, 1, 3⟩
    ⟨by norm_num, by norm_num, by norm_num⟩ [1, 2] 0 1 one_pos

/-- C2: the collapsed Gibbs assignment weight list has one entry per existing
cluster, namely `n_c * pred (post prior c) x` at the cluster's position, and
ends with the new-cluster weight `alpha * pred prior x`. -/
theorem claim_C2_gibbs_assignment_weights {P : Type} (F : PriorOps P)
    (alpha : ℝ) (prior : P) (clusters : List (List ℝ)) (x : ℝ) :
    (gibbsWeights F alpha prior clusters x).length = clusters.length + 1 ∧
    (∀ (i : ℕ) (c : List ℝ), clusters[i]? = some c →
      (gibbsWeights F alpha prior clusters x)[i]? =
        some ((c.length : ℝ) * F.pred (F.post prior c) x)) ∧
    (gibbsWeights F alpha prior clusters x).getLast? =
      some (alpha * F.pred prior x) := by
  refine ⟨by simp [gibbsWeights], fun i c hc => ?_, ?_⟩
  · have hi : i < clusters.length := by
      by_contra h
      rw [List.getElem?_eq_none (le_of_not_lt h)] at hc
      exact Option.noConfusion hc
    rw [gibbsWeights, List.getElem?_append_left (by simpa using hi),
      List.getElem?_map, hc]
    rfl
  · rw [gibbsWeights, List.getLast?_concat]

/-- C2 witness: the weight of the single existing cluster at a concrete
instance. -/
theorem claim_C2_gibbs_assignment_weights_witness :
    (gibbsWeights ⟨NIX.post, NIX.pred⟩ 2 (⟨0, 2, 1, 3⟩ : NIXParams)
        [[5]] 7)[0]? =
      some ((([5] : List ℝ).length : ℝ) *
        NIX.pred (NIX.post ⟨0, 2, 1, 3⟩ [5]) 7) :=
  (claim_C2_gibbs_assignment_weights ⟨NIX.post, NIX.pred⟩ 2 ⟨0, 2, 1, 3⟩
    [[5]] 7).2.1 0 [5] rfl

/-- C3: NIX and NIG instances built from matched hyperparameters
(m_0 = mu_0, V_0 = 1/kappa_0, a_0 = nu_0/2, b_0 = nu_0*sigsqr_0/2) agree
exactly on density, prior predictive, posterior predictive, posterior
density, single-observation likelihood, and evidence. -/
theorem claim_C3_NIX_NIG_reparameterization (p : NIXParams) (q : NIGParams)
    (hp : NIX.Valid p) (h1 : q.m_0 = p.mu_0) (h2 : q.V_0 = 1 / p.kappa_0)
    (h3 : q.a_0 = p.nu_0 / 2) (h4 : q.b_0 = p.nu_0 * p.sigsqr_0 / 2) :
    (∀ mu var : ℝ, NIG.density q mu var = NIX.density p mu var) ∧
    (∀ x : ℝ, NIG.pred q x = NIX.pred p x) ∧
    (∀ (D : List ℝ) (x : ℝ),
      NIG.pred (NIG.post q D) x = NIX.pred (NIX.post p D) x) ∧
    (∀ (D : List ℝ) (mu var : ℝ),
      NIG.density (NIG.post q D) mu var = NIX.density (NIX.post p D) mu var) ∧
    (∀ mu var x : ℝ, NIG.like1 mu var x = NIX.like1 mu var x) ∧
    (∀ D : List ℝ, NIG.evidence q D = NIX.evidence p D) := by
  obtain ⟨hk, hn, hs⟩ := hp
  have hq : NIG.Valid q :=
    ⟨by rw [h2]; positivity, by rw [h3]; positivity, by rw [h4]; positivity⟩
  have htox : NIG.toNIX q = p := by
    ext
    · exact h1
    · rw [NIG.toNIX_kappa, h2, one_div_one_div]
    · rw [NIG.toNIX_sigsqr, h4, h3]
      field_simp
    · rw [NIG.toNIX_nu, h3]
      ring
  refine ⟨fun mu var => ?_, fun x => ?_, fun D x => ?_, fun D mu var => ?_,
    fun mu var x => NIG.like1_eq mu var x, fun D => ?_⟩
  · rw [NIG.bridge.1 hq, htox]
  · rw [NIG.bridge.2.2 hq, htox]
  · rw [NIG.bridge.2.2 (NIG.valid_post_G hq D), NIG.post_corr hq D, htox]
  · rw [NIG.bridge.1 (NIG.valid_post_G hq D), NIG.post_corr hq D, htox]
  · rw [NIG.bridge.2.1 hq, htox]

/-- C3 witness: matched NIX and NIG instances share their evidence at a
concrete data set. -/
theorem claim_C3_NIX_NIG_reparameterization_witness :
    NIG.evidence ⟨0, 1 / 2, 2, 2⟩ [1] = NIX.evidence ⟨0, 2, 1, 4⟩ [1] :=
  (claim_C3_NIX_NIG_reparameterization ⟨0, 2, 1, 4⟩ ⟨0, 1 / 2, 2, 2⟩
    ⟨by norm_num, by norm_num, by norm_num⟩ (by norm_num) (by norm_num)
    (by norm_num) (by norm_num)).2.2.2.2.2 [1]

lemma div_div_cancel_common {a b e : ℝ} (he : e ≠ 0) : a / e / (b / e) = a / b := by
  rcases eq_or_ne b 0 with rfl | hb
  · simp
  · field_simp

/-- C5: for every variant, evidence of a one-observation sequence is the
predictive at that observation, evidence factors as the sequential chain of
posterior predictives, and evidence is invariant under permutations of the
data. -/
theorem claim_C5_evidence_chain_and_exchangeability :
    ((∀ p : NIXParams, NIX.Valid p → ∀ x : ℝ,
        NIX.evidence p [x] = NIX.pred p x) ∧
      (∀ p : NIXParams, NIX.Valid p → ∀ D : List ℝ,
        NIX.evidence p D =
          ∏ i : Fin D.length, NIX.pred (NIX.post p (D.take i.1)) (D.get i)) ∧
      (∀ (p : NIXParams) (D D' : List ℝ), D.Perm D' →
        NIX.evidence p D = NIX.evidence p D')) ∧
    ((∀ q : NIGParams, NIG.Valid q → ∀ x : ℝ,
        NIG.evidence q [x] = NIG.pred q x) ∧
      (∀ q : NIGParams, NIG.Valid q → ∀ D : List ℝ,
        NIG.evidence q D =
          ∏ i : Fin D.length, NIG.pred (NIG.post q (D.take i.1)) (D.get i)) ∧
      (∀ (q : NIGParams) (D D' : List ℝ), D.Perm D' →
        NIG.evidence q D = NIG.evidence q D')) ∧
    ((∀ g : InvGammaParams, InvGamma.Valid g → ∀ x : ℝ,
        InvGamma.evidence g [x] = InvGamma.pred g x) ∧
      (∀ g : InvGammaParams, InvGamma.Valid g → ∀ D : List ℝ,
        InvGamma.evidence g D =
          ∏ i : Fin D.length,
            InvGamma.pred (InvGamma.post g (D.take i.1)) (D.get i)) ∧
      (∀ (g : InvGammaParams) (D D' : List ℝ), D.Perm D' →
        InvGamma.evidence g D = InvGamma.evidence g D')) ∧
    ((∀ p : GaussianMeanKnownVarianceParams, GaussianMeanKnownVariance.Valid p →
        ∀ x : ℝ, GaussianMeanKnownVariance.evidence p [x] =
          GaussianMeanKnownVariance.pred p x) ∧
      (∀ p : GaussianMeanKnownVarianceParams, GaussianMeanKnownVariance.Valid p →
        ∀ D : List ℝ,
        GaussianMeanKnownVariance.evidence p D =
          ∏ i : Fin D.length,
            GaussianMeanKnownVariance.pred
              (GaussianMeanKnownVariance.post p (D.take i.1)) (D.get i)) ∧
      (∀ (p : GaussianMeanKnownVarianceParams) (D D' : List ℝ), D.Perm D' →
        GaussianMeanKnownVariance.evidence p D =
          GaussianMeanKnownVariance.evidence p D')) ∧
    ((∀ (d : ℕ) (p : NIWParams d), NIW.Valid p → ∀ x : Fin d → ℝ,
        NIW.evidence p [x] = NIW.pred p x) ∧
      (∀ (d : ℕ) (p : NIWParams d), NIW.Valid p → ∀ D : List (Fin d → ℝ),
        NIW.evidence p D =
          ∏ i : Fin D.length, NIW.pred (NIW.post p (D.take i.1)) (D.get i)) ∧
      (∀ (d : ℕ) (p : NIWParams d) (D D' : List (Fin d → ℝ)), D.Perm D' →
        NIW.evidence p D = NIW.evidence p D')) ∧
    ((∀ (d : ℕ) (w : InvWishParams d) (x : Fin d → ℝ),
        InvWish.evidence w [x] = InvWish.pred w x) ∧
      (∀ (d : ℕ) (w : InvWishParams d), InvWish.Valid w →
        ∀ D : List (Fin d → ℝ),
        InvWish.evidence w D =
          ∏ i : Fin D.length,
            InvWish.pred (InvWish.post w (D.take i.1)) (D.get i)) ∧
      (∀ (d : ℕ) (w : InvWishParams d) (D D' : List (Fin d → ℝ)), D.Perm D' →
        InvWish.evidence w D = InvWish.evidence w D')) :=
  ⟨⟨fun _ hp x => (NIX.laws_X.2.2.1 hp x).symm,
    fun _ hp D => NIX.laws_X.2.2.2.2.1 hp D,
    fun p _ _ h => NIX.laws_X.2.2.2.2.2 p h⟩,
   ⟨fun _ hq x => (NIG.laws_G.2.2.1 hq x).symm,
    fun _ hq D => NIG.laws_G.2.2.2.2.1 hq D,
    fun q _ _ h => NIG.laws_G.2.2.2.2.2 q h⟩,
   ⟨fun _ hg x => (InvGamma.laws_IG.2.2.1 hg x).symm,
    fun _ hg D => InvGamma.laws_IG.2.2.2.2.1 hg D,
    fun g _ _ h => InvGamma.laws_IG.2.2.2.2.2 g h⟩,
   ⟨fun _ hp x => (GaussianMeanKnownVariance.laws_K.2.2.1 hp x).symm,
    fun _ hp D => GaussianMeanKnownVariance.laws_K.2.2.2.2.1 hp D,
    fun p _ _ h => GaussianMeanKnownVariance.laws_K.2.2.2.2.2 p h⟩,
   ⟨fun _ _ hp x => (NIW.laws_W.2.2.1 hp x).symm,
    fun _ _ hp D => NIW.laws_W.2.2.2.2.1 hp D,
    fun _ p _ _ h => NIW.laws_W.2.2.2.2.2 p h⟩,
   ⟨fun _ _ x => (InvWish.laws_IW.2.2.1 x).symm,
    fun _ _ hw D => InvWish.laws_IW.2.2.2.2.1 hw D,
    fun _ w _ _ h => InvWish.laws_IW.2.2.2.2.2 w h⟩⟩

/-- C5 witness: one-observation evidence equals the predictive at a concrete
NIX instance. -/
theorem claim_C5_evidence_chain_and_exchangeability_witness :
    NIX.evidence ⟨0, 2, 1, 3⟩ [5] = NIX.pred ⟨0, 2, 1, 3⟩ 5 :=
  claim_C5_evidence_chain_and_exchangeability.1.1 ⟨0, 2, 1, 3⟩
    ⟨by norm_num, by norm_num, by norm_num⟩ 5

/-- C6: for every variant the posterior density ratio at two parameter points
equals the ratio of prior-times-likelihood, the proportionality form of the
Bayes law, InvGamma and InvWish included. -/
theorem claim_C6_posterior_proportional_to_prior_times_likelihood :
    (∀ p : NIXParams, NIX.Valid p → ∀ (D : List ℝ) (mu var mu' var' : ℝ),
      0 < var → 0 < var' →
      NIX.density (NIX.post p D) mu var / NIX.density (NIX.post p D) mu' var' =
        NIX.density p mu var * NIX.likelihood mu var D /
          (NIX.density p mu' var' * NIX.likelihood mu' var' D)) ∧
    (∀ q : NIGParams, NIG.Valid q → ∀ (D : List ℝ) (mu var mu' var' : ℝ),
      0 < var → 0 < var' →
      NIG.density (NIG.post q D) mu var / NIG.density (NIG.post q D) mu' var' =
        NIG.density q mu var * NIG.likelihood mu var D /
          (NIG.density q mu' var' * NIG.likelihood mu' var' D)) ∧
    (∀ g : InvGammaParams, InvGamma.Valid g → ∀ (D : List ℝ) (var var' : ℝ),
      0 < var → 0 < var' →
      InvGamma.density (InvGamma.post g D) var /
          InvGamma.density (InvGamma.post g D) var' =
        InvGamma.density g var * InvGamma.likelihood g var D /
          (InvGamma.density g var' * InvGamma.likelihood g var' D)) ∧
    (∀ p : GaussianMeanKnownVarianceParams, GaussianMeanKnownVariance.Valid p →
      ∀ (D : List ℝ) (mu mu' : ℝ),
      GaussianMeanKnownVariance.density (GaussianMeanKnownVariance.post p D) mu /
          GaussianMeanKnownVariance.density
            (GaussianMeanKnownVariance.post p D) mu' =
        GaussianMeanKnownVariance.density p mu *
            GaussianMeanKnownVariance.likelihood p mu D /
          (GaussianMeanKnownVariance.density p mu' *
            GaussianMeanKnownVariance.likelihood p mu' D)) ∧
    (∀ (d : ℕ) (p : NIWParams d), NIW.Valid p → ∀ (D : List (Fin d → ℝ))
      (mu mu' : Fin d → ℝ) (Sig Sig' : Matrix (Fin d) (Fin d) ℝ),
      0 < Sig.det → 0 < Sig'.det →
      NIW.density (NIW.post p D) mu Sig / NIW.density (NIW.post p D) mu' Sig' =
        NIW.density p mu Sig * NIW.likelihood mu Sig D /
          (NIW.density p mu' Sig' * NIW.likelihood mu' Sig' D)) ∧
    (∀ (d : ℕ) (w : InvWishParams d), InvWish.Valid w →
      ∀ (D : List (Fin d → ℝ)) (Sig Sig' : Matrix (Fin d) (Fin d) ℝ),
      0 < Sig.det → 0 < Sig'.det →
      InvWish.density (InvWish.post w D) Sig /
          InvWish.density (InvWish.post w D) Sig' =
        InvWish.density w Sig * InvWish.likelihood w Sig D /
          (InvWish.density w Sig' * InvWish.likelihood w Sig' D)) :=
  ⟨fun _ hp D mu _ mu' _ hv hv' => by
      rw [NIX.laws_X.1 hp D mu hv, NIX.laws_X.1 hp D mu' hv',
        div_div_cancel_common (NIX.laws_X.2.1 hp D).ne'],
   fun _ hq D mu _ mu' _ hv hv' => by
      rw [NIG.laws_G.1 hq D mu hv, NIG.laws_G.1 hq D mu' hv',
        div_div_cancel_common (NIG.laws_G.2.1 hq D).ne'],
   fun _ hg D _ _ hv hv' => by
      rw [InvGamma.laws_IG.1 hg D hv, InvGamma.laws_IG.1 hg D hv',
        div_div_cancel_common (InvGamma.laws_IG.2.1 hg D).ne'],
   fun _ hp D mu mu' => by
      rw [GaussianMeanKnownVariance.laws_K.1 hp D mu,
        GaussianMeanKnownVariance.laws_K.1 hp D mu',
        div_div_cancel_common (GaussianMeanKnownVariance.laws_K.2.1 hp D).ne'],
   fun _ _ hp D mu mu' _ _ hS hS' => by
      rw [NIW.laws_W.1 hp D mu hS, NIW.laws_W.1 hp D mu' hS',
        div_div_cancel_common (NIW.laws_W.2.1 hp D).ne'],
   fun _ _ hw D _ _ hS hS' => by
      rw [InvWish.laws_IW.1 hw D hS, InvWish.laws_IW.1 hw D hS',
        div_div_cancel_common (InvWish.laws_IW.2.1 hw D).ne']⟩

/-- C6 witness: the NIX proportionality law at a concrete instance. -/
theorem claim_C6_posterior_proportional_to_prior_times_likelihood_witness :
    NIX.density (NIX.post ⟨0, 2, 1, 3⟩ [1]) 0 1 /
        NIX.density (NIX.post ⟨0, 2, 1, 3⟩ [1]) 1 2 =
      NIX.density ⟨0, 2, 1, 3⟩ 0 1 * NIX.likelihood 0 1 [1] /
        (NIX.density ⟨0, 2, 1, 3⟩ 1 2 * NIX.likelihood 1 2 [1]) :=
  claim_C6_posterior_proportional_to_prior_times_likelihood.1 ⟨0, 2, 1, 3⟩
    ⟨by norm_num, by norm_num, by norm_num⟩ [1] 0 1 1 2 one_pos two_pos

/-- C7: for NIX and NIG, `marginal_var` is the joint parameter density
integrated over the mean, and `marginal_mu` is the joint density integrated
over the positive variance axis. -/
theorem claim_C7_marginals_integrate_joint_density :
    (∀ p : NIXParams, NIX.Valid p → ∀ var : ℝ, 0 < var →
      ∫ mu : ℝ, NIX.density p mu var = NIX.marginal_var p var) ∧
    (∀ p : NIXParams, NIX.Valid p → ∀ m : ℝ,
      ∫ var in Ioi (0 : ℝ), NIX.density p m var = NIX.marginal_mu p m) ∧
    (∀ q : NIGParams, NIG.Valid q → ∀ var : ℝ, 0 < var →
      ∫ mu : ℝ, NIG.density q mu var = NIG.marginal_var q var) ∧
    (∀ q : NIGParams, NIG.Valid q → ∀ m : ℝ,
      ∫ var in Ioi (0 : ℝ), NIG.density q m var = NIG.marginal_mu q m) := by
  have integral_inv_gamma : ∀ {a c : ℝ}, 0 < a → 0 < c →
      ∫ v in Ioi (0 : ℝ), v ^ (-(a + 1)) * exp (-(c / v)) = Gamma a / c ^ a :=
    fun ha hc => integral_toolkit.2.1 ha hc
  have integral_gaussian_shift := integral_toolkit.2.2
  have marginal_var_eq_X : ∀ {p : NIXParams} (hp : NIX.Valid p) {var : ℝ} (hv : 0 < var), ∫ mu : ℝ, NIX.density p mu var = NIX.marginal_var p var := by
    intro p hp var hv
    obtain ⟨hk, hn, hs⟩ := hp
    have hcong : (fun mu : ℝ => NIX.density p mu var) =
        fun mu : ℝ =>
          ((p.kappa_0 / (2 * π * var)) ^ ((1 : ℝ) / 2) *
            ((p.nu_0 * p.sigsqr_0 / 2) ^ (p.nu_0 / 2) / Gamma (p.nu_0 / 2)) *
            var ^ (-(p.nu_0 / 2 + 1)) * exp (-(p.nu_0 * p.sigsqr_0) / (2 * var))) *
            exp (-(p.kappa_0 / (2 * var) * (mu - p.mu_0) ^ 2)) := by
      funext mu
      delta NIX.density
      rw [ show (-(p.nu_0 * p.sigsqr_0 + p.kappa_0 * (mu - p.mu_0) ^ 2) / (2 * var)) =
        (-(p.nu_0 * p.sigsqr_0) / (2 * var)) +
          (-(p.kappa_0 / (2 * var) * (mu - p.mu_0) ^ 2)) by ring, Real.exp_add]
      ring
    rw [hcong, MeasureTheory.integral_mul_left, integral_gaussian_shift]
    have key : (p.kappa_0 / (2 * π * var)) ^ ((1 : ℝ) / 2) *
        Real.sqrt (π / (p.kappa_0 / (2 * var))) = 1 := by
      rw [Real.sqrt_eq_rpow, ← Real.mul_rpow (by positivity) (by positivity),
        show p.kappa_0 / (2 * π * var) * (π / (p.kappa_0 / (2 * var))) = 1 by
          field_simp
          ring]
      exact Real.one_rpow _
    delta NIX.marginal_var
    rw [
      show ((p.kappa_0 / (2 * π * var)) ^ ((1 : ℝ) / 2) *
          ((p.nu_0 * p.sigsqr_0 / 2) ^ (p.nu_0 / 2) / Gamma (p.nu_0 / 2)) *
          var ^ (-(p.nu_0 / 2 + 1)) * exp (-(p.nu_0 * p.sigsqr_0) / (2 * var))) *
          Real.sqrt (π / (p.kappa_0 / (2 * var))) =
        ((p.kappa_0 / (2 * π * var)) ^ ((1 : ℝ) / 2) *
          Real.sqrt (π / (p.kappa_0 / (2 * var)))) *
          (((p.nu_0 * p.sigsqr_0 / 2) ^ (p.nu_0 / 2) / Gamma (p.nu_0 / 2)) *
            var ^ (-(p.nu_0 / 2 + 1)) * exp (-(p.nu_0 * p.sigsqr_0) / (2 * var))) by ring,
      key, one_mul]
  have marginal_mu_eq_X : ∀ {p : NIXParams} (hp : NIX.Valid p) (m : ℝ), ∫ var in Ioi (0 : ℝ), NIX.density p m var = NIX.marginal_mu p m := by
    intro p hp m
    obtain ⟨hk, hn, hs⟩ := hp
    have hQ : (0 : ℝ) < p.nu_0 * p.sigsqr_0 + p.kappa_0 * (m - p.mu_0) ^ 2 := by
      positivity
    have hcong : ∀ var ∈ Ioi (0 : ℝ), NIX.density p m var =
        ((p.kappa_0 / (2 * π)) ^ ((1 : ℝ) / 2) *
          ((p.nu_0 * p.sigsqr_0 / 2) ^ (p.nu_0 / 2) / Gamma (p.nu_0 / 2))) *
          (var ^ (-((p.nu_0 + 1) / 2 + 1)) *
            exp (-(((p.nu_0 * p.sigsqr_0 + p.kappa_0 * (m - p.mu_0) ^ 2) / 2) / var))) := by
      intro var hv
      have hv0 : (0 : ℝ) < var := hv
      have e1 : (p.kappa_0 / (2 * π * var)) ^ ((1 : ℝ) / 2) =
          (p.kappa_0 / (2 * π)) ^ ((1 : ℝ) / 2) * var ^ (-((1 : ℝ) / 2)) := by
        rw [show p.kappa_0 / (2 * π * var) = (p.kappa_0 / (2 * π)) * var⁻¹ by
            field_simp,
          Real.mul_rpow (by positivity) (by positivity), Real.inv_rpow hv0.le,
          ← Real.rpow_neg hv0.le]
      have e2 : var ^ (-((1 : ℝ) / 2)) * var ^ (-(p.nu_0 / 2 + 1)) =
          var ^ (-((p.nu_0 + 1) / 2 + 1)) := by
        rw [← Real.rpow_add hv0]
        congr 1
        ring
      have e3 : exp (-(p.nu_0 * p.sigsqr_0 + p.kappa_0 * (m - p.mu_0) ^ 2) / (2 * var)) =
          exp (-(((p.nu_0 * p.sigsqr_0 + p.kappa_0 * (m - p.mu_0) ^ 2) / 2) / var)) := by
        congr 1
        ring
      delta NIX.density
      rw [ e1, e3,
        show (p.kappa_0 / (2 * π)) ^ ((1 : ℝ) / 2) * var ^ (-((1 : ℝ) / 2)) *
            ((p.nu_0 * p.sigsqr_0 / 2) ^ (p.nu_0 / 2) / Gamma (p.nu_0 / 2)) *
            var ^ (-(p.nu_0 / 2 + 1)) *
            exp (-(((p.nu_0 * p.sigsqr_0 + p.kappa_0 * (m - p.mu_0) ^ 2) / 2) / var)) =
          ((p.kappa_0 / (2 * π)) ^ ((1 : ℝ) / 2) *
            ((p.nu_0 * p.sigsqr_0 / 2) ^ (p.nu_0 / 2) / Gamma (p.nu_0 / 2))) *
            ((var ^ (-((1 : ℝ) / 2)) * var ^ (-(p.nu_0 / 2 + 1))) *
              exp (-(((p.nu_0 * p.sigsqr_0 + p.kappa_0 * (m - p.mu_0) ^ 2) / 2) / var)))
          by ring,
        e2]
    rw [setIntegral_congr_fun measurableSet_Ioi hcong, MeasureTheory.integral_mul_left,
      integral_inv_gamma (show (0 : ℝ) < (p.nu_0 + 1) / 2 by positivity)
        (show (0 : ℝ) < (p.nu_0 * p.sigsqr_0 + p.kappa_0 * (m - p.mu_0) ^ 2) / 2 by
          positivity)]
    delta NIX.marginal_mu
    rw [ Real.rpow_neg (by positivity)]
    field_simp
  have marginal_var_eq_G : ∀ {q : NIGParams} (hq : NIG.Valid q) {var : ℝ} (hv : 0 < var), ∫ mu : ℝ, NIG.density q mu var = NIG.marginal_var q var := by
    intro q hq var hv
    obtain ⟨hV, ha, hb⟩ := hq
    have hcong : (fun mu : ℝ => NIG.density q mu var) =
        fun mu : ℝ =>
          ((1 / (2 * π * var * q.V_0)) ^ ((1 : ℝ) / 2) *
            (q.b_0 ^ q.a_0 / Gamma q.a_0) * var ^ (-(q.a_0 + 1)) *
            exp (-q.b_0 / var)) *
            exp (-(1 / (2 * var * q.V_0) * (mu - q.m_0) ^ 2)) := by
      funext mu
      delta NIG.density
      rw [ show (-(2 * q.b_0 + (mu - q.m_0) ^ 2 / q.V_0) / (2 * var)) =
        (-q.b_0 / var) + (-(1 / (2 * var * q.V_0) * (mu - q.m_0) ^ 2)) by
          field_simp
          ring, Real.exp_add]
      ring
    rw [hcong, MeasureTheory.integral_mul_left, integral_gaussian_shift]
    have key : (1 / (2 * π * var * q.V_0)) ^ ((1 : ℝ) / 2) *
        Real.sqrt (π / (1 / (2 * var * q.V_0))) = 1 := by
      rw [Real.sqrt_eq_rpow, ← Real.mul_rpow (by positivity) (by positivity),
        show 1 / (2 * π * var * q.V_0) * (π / (1 / (2 * var * q.V_0))) = 1 by
          field_simp
          ring]
      exact Real.one_rpow _
    delta NIG.marginal_var
    rw [
      show ((1 / (2 * π * var * q.V_0)) ^ ((1 : ℝ) / 2) *
          (q.b_0 ^ q.a_0 / Gamma q.a_0) * var ^ (-(q.a_0 + 1)) *
          exp (-q.b_0 / var)) * Real.sqrt (π / (1 / (2 * var * q.V_0))) =
        ((1 / (2 * π * var * q.V_0)) ^ ((1 : ℝ) / 2) *
          Real.sqrt (π / (1 / (2 * var * q.V_0)))) *
          ((q.b_0 ^ q.a_0 / Gamma q.a_0) * var ^ (-(q.a_0 + 1)) *
            exp (-q.b_0 / var)) by ring,
      key, one_mul]
  have marginal_mu_eq_G : ∀ {q : NIGParams} (hq : NIG.Valid q) (m : ℝ), ∫ var in Ioi (0 : ℝ), NIG.density q m var = NIG.marginal_mu q m := by
    intro q hq m
    obtain ⟨hV, ha, hb⟩ := hq
    have hcong : ∀ var ∈ Ioi (0 : ℝ), NIG.density q m var =
        ((1 / (2 * π * q.V_0)) ^ ((1 : ℝ) / 2) * (q.b_0 ^ q.a_0 / Gamma q.a_0)) *
          (var ^ (-(q.a_0 + 1 / 2 + 1)) *
            exp (-((q.b_0 + (m - q.m_0) ^ 2 / (2 * q.V_0)) / var))) := by
      intro var hv
      have hv0 : (0 : ℝ) < var := hv
      have e1 : (1 / (2 * π * var * q.V_0)) ^ ((1 : ℝ) / 2) =
          (1 / (2 * π * q.V_0)) ^ ((1 : ℝ) / 2) * var ^ (-((1 : ℝ) / 2)) := by
        rw [show 1 / (2 * π * var * q.V_0) = (1 / (2 * π * q.V_0)) * var⁻¹ by
            field_simp
            ring,
          Real.mul_rpow (by positivity) (by positivity), Real.inv_rpow hv0.le,
          ← Real.rpow_neg hv0.le]
      have e2 : var ^ (-((1 : ℝ) / 2)) * var ^ (-(q.a_0 + 1)) =
          var ^ (-(q.a_0 + 1 / 2 + 1)) := by
        rw [← Real.rpow_add hv0]
        congr 1
        ring
      have e3 : exp (-(2 * q.b_0 + (m - q.m_0) ^ 2 / q.V_0) / (2 * var)) =
          exp (-((q.b_0 + (m - q.m_0) ^ 2 / (2 * q.V_0)) / var)) := by
        congr 1
        field_simp
        ring
      delta NIG.density
      rw [ e1, e3,
        show (1 / (2 * π * q.V_0)) ^ ((1 : ℝ) / 2) * var ^ (-((1 : ℝ) / 2)) *
            (q.b_0 ^ q.a_0 / Gamma q.a_0) * var ^ (-(q.a_0 + 1)) *
            exp (-((q.b_0 + (m - q.m_0) ^ 2 / (2 * q.V_0)) / var)) =
          ((1 / (2 * π * q.V_0)) ^ ((1 : ℝ) / 2) * (q.b_0 ^ q.a_0 / Gamma q.a_0)) *
            ((var ^ (-((1 : ℝ) / 2)) * var ^ (-(q.a_0 + 1))) *
              exp (-((q.b_0 + (m - q.m_0) ^ 2 / (2 * q.V_0)) / var))) by ring,
        e2]
    rw [setIntegral_congr_fun measurableSet_Ioi hcong, MeasureTheory.integral_mul_left,
      integral_inv_gamma (show (0 : ℝ) < q.a_0 + 1 / 2 by positivity)
        (show (0 : ℝ) < q.b_0 + (m - q.m_0) ^ 2 / (2 * q.V_0) by positivity)]
    delta NIG.marginal_mu
    rw [ Real.rpow_neg (by positivity)]
    field_simp
  exact ⟨fun _ hp _ hv => marginal_var_eq_X hp hv,
    fun _ hp m => marginal_mu_eq_X hp m,
    fun _ hq _ hv => marginal_var_eq_G hq hv,
    fun _ hq m => marginal_mu_eq_G hq m⟩

/-- C7 witness: the NIX variance marginal at a concrete instance. -/
theorem claim_C7_marginals_integrate_joint_density_witness :
    ∫ mu : ℝ, NIX.density ⟨0, 2, 1, 3⟩ mu 1 = NIX.marginal_var ⟨0, 2, 1, 3⟩ 1 :=
  claim_C7_marginals_integrate_joint_density.1 ⟨0, 2, 1, 3⟩
    ⟨by norm_num, by norm_num, by norm_num⟩ 1 one_pos

/-- C8: for every variant, `post` is a pure call: the receiver is unchanged
(each of its operations returns the same value after the call) and the result
is the conjugate update. -/
theorem claim_C8_post_leaves_receiver_unchanged :
    (∀ (p : NIXParams) (D : List ℝ),
      (NIX.postCall p D).1 = p ∧ (NIX.postCall p D).2 = NIX.post p D ∧
      (∀ mu var : ℝ,
        NIX.density (NIX.postCall p D).1 mu var = NIX.density p mu var) ∧
      (∀ x : ℝ, NIX.pred (NIX.postCall p D).1 x = NIX.pred p x) ∧
      (∀ D' : List ℝ,
        NIX.evidence (NIX.postCall p D).1 D' = NIX.evidence p D')) ∧
    (∀ (q : NIGParams) (D : List ℝ),
      (NIG.postCall q D).1 = q ∧ (NIG.postCall q D).2 = NIG.post q D ∧
      (∀ mu var : ℝ,
        NIG.density (NIG.postCall q D).1 mu var = NIG.density q mu var) ∧
      (∀ x : ℝ, NIG.pred (NIG.postCall q D).1 x = NIG.pred q x) ∧
      (∀ D' : List ℝ,
        NIG.evidence (NIG.postCall q D).1 D' = NIG.evidence q D')) ∧
    (∀ (g : InvGammaParams) (D : List ℝ),
      (InvGamma.postCall g D).1 = g ∧
      (InvGamma.postCall g D).2 = InvGamma.post g D ∧
      (∀ var : ℝ,
        InvGamma.density (InvGamma.postCall g D).1 var =
          InvGamma.density g var) ∧
      (∀ (var : ℝ) (D' : List ℝ),
        InvGamma.likelihood (InvGamma.postCall g D).1 var D' =
          InvGamma.likelihood g var D') ∧
      (∀ x : ℝ, InvGamma.pred (InvGamma.postCall g D).1 x = InvGamma.pred g x) ∧
      (∀ D' : List ℝ,
        InvGamma.evidence (InvGamma.postCall g D).1 D' =
          InvGamma.evidence g D')) ∧
    (∀ (p : GaussianMeanKnownVarianceParams) (D : List ℝ),
      (GaussianMeanKnownVariance.postCall p D).1 = p ∧
      (GaussianMeanKnownVariance.postCall p D).2 =
        GaussianMeanKnownVariance.post p D ∧
      (∀ mu : ℝ,
        GaussianMeanKnownVariance.density
            (GaussianMeanKnownVariance.postCall p D).1 mu =
          GaussianMeanKnownVariance.density p mu) ∧
      (∀ (mu : ℝ) (D' : List ℝ),
        GaussianMeanKnownVariance.likelihood
            (GaussianMeanKnownVariance.postCall p D).1 mu D' =
          GaussianMeanKnownVariance.likelihood p mu D') ∧
      (∀ x : ℝ,
        GaussianMeanKnownVariance.pred
            (GaussianMeanKnownVariance.postCall p D).1 x =
          GaussianMeanKnownVariance.pred p x) ∧
      (∀ D' : List ℝ,
        GaussianMeanKnownVariance.evidence
            (GaussianMeanKnownVariance.postCall p D).1 D' =
          GaussianMeanKnownVariance.evidence p D')) ∧
    (∀ (d : ℕ) (p : NIWParams d) (D : List (Fin d → ℝ)),
      (NIW.postCall p D).1 = p ∧ (NIW.postCall p D).2 = NIW.post p D ∧
      (∀ (mu : Fin d → ℝ) (Sig : Matrix (Fin d) (Fin d) ℝ),
        NIW.density (NIW.postCall p D).1 mu Sig = NIW.density p mu Sig) ∧
      (∀ x : Fin d → ℝ, NIW.pred (NIW.postCall p D).1 x = NIW.pred p x) ∧
      (∀ D' : List (Fin d → ℝ),
        NIW.evidence (NIW.postCall p D).1 D' = NIW.evidence p D')) ∧
    (∀ (d : ℕ) (w : InvWishParams d) (D : List (Fin d → ℝ)),
      (InvWish.postCall w D).1 = w ∧
      (InvWish.postCall w D).2 = InvWish.post w D ∧
      (∀ Sig : Matrix (Fin d) (Fin d) ℝ,
        InvWish.density (InvWish.postCall w D).1 Sig = InvWish.density w Sig) ∧
      (∀ x : Fin d → ℝ,
        InvWish.pred (InvWish.postCall w D).1 x = InvWish.pred w x) ∧
      (∀ D' : List (Fin d → ℝ),
        InvWish.evidence (InvWish.postCall w D).1 D' =
          InvWish.evidence w D')) :=
  ⟨fun _ _ => ⟨rfl, rfl, fun _ _ => rfl, fun _ => rfl, fun _ => rfl⟩,
   fun _ _ => ⟨rfl, rfl, fun _ _ => rfl, fun _ => rfl, fun _ => rfl⟩,
   fun _ _ => ⟨rfl, rfl, fun _ => rfl, fun _ _ => rfl, fun _ => rfl,
     fun _ => rfl⟩,
   fun _ _ => ⟨rfl, rfl, fun _ => rfl, fun _ _ => rfl, fun _ => rfl,
     fun _ => rfl⟩,
   fun _ _ _ => ⟨rfl, rfl, fun _ _ => rfl, fun _ => rfl, fun _ => rfl⟩,
   fun _ _ _ => ⟨rfl, rfl, fun _ => rfl, fun _ => rfl, fun _ => rfl⟩⟩

/-- C9: the InvGamma variant is rate-parameterized: for alpha above 1 the
mean of its parameter density is 1/(beta*(alpha-1)), for alpha above 2 its
variance is 1/(beta^2*(alpha-1)^2*(alpha-2)), and for beta other than 1 the
mean differs from the scale-parameterization value beta/(alpha-1). -/
theorem claim_C9_invgamma_rate_parameterization :
    (∀ g : InvGammaParams, InvGamma.Valid g → 1 < g.alpha →
      ∫ v in Ioi (0 : ℝ), v * InvGamma.density g v =
        1 / (g.beta * (g.alpha - 1))) ∧
    (∀ g : InvGammaParams, InvGamma.Valid g → 2 < g.alpha →
      ∫ v in Ioi (0 : ℝ),
          (v - 1 / (g.beta * (g.alpha - 1))) ^ 2 * InvGamma.density g v =
        1 / (g.beta ^ 2 * (g.alpha - 1) ^ 2 * (g.alpha - 2))) ∧
    (∀ g : InvGammaParams, InvGamma.Valid g → 1 < g.alpha → g.beta ≠ 1 →
      (∫ v in Ioi (0 : ℝ), v * InvGamma.density g v) ≠
        g.beta / (g.alpha - 1)) := by
  have integrableOn_inv_gamma : ∀ {s c : ℝ}, 1 < s → 0 < c →
      IntegrableOn (fun v : ℝ => v ^ (-s) * exp (-(c / v))) (Ioi 0) :=
    fun hs hc => integral_toolkit.1 hs hc
  have integral_inv_gamma : ∀ {a c : ℝ}, 0 < a → 0 < c →
      ∫ v in Ioi (0 : ℝ), v ^ (-(a + 1)) * exp (-(c / v)) = Gamma a / c ^ a :=
    fun ha hc => integral_toolkit.2.1 ha hc
  have mean_eq : ∀ {g : InvGammaParams} (hg : InvGamma.Valid g) (ha : 1 < g.alpha), ∫ v in Ioi (0 : ℝ), v * InvGamma.density g v = 1 / (g.beta * (g.alpha - 1)) := by
    intro g hg ha
    obtain ⟨ha0, hb⟩ := hg
    have hcong : ∀ v ∈ Ioi (0 : ℝ), v * InvGamma.density g v =
        ((1 / g.beta) ^ g.alpha / Gamma g.alpha) *
          (v ^ (-(g.alpha - 1 + 1)) * exp (-(1 / g.beta / v))) := by
      intro v hv
      have hv0 : (0 : ℝ) < v := hv
      have e2 : v * v ^ (-(g.alpha + 1)) = v ^ (-(g.alpha - 1 + 1)) := by
        nth_rewrite 1 [show v = v ^ (1 : ℝ) from (Real.rpow_one v).symm]
        rw [← Real.rpow_add hv0]
        congr 1
        ring
      have e3 : exp (-(1 / (g.beta * v))) = exp (-(1 / g.beta / v)) := by
        congr 1
        ring
      delta InvGamma.density
      rw [ e3, show v * ((1 / g.beta) ^ g.alpha / Gamma g.alpha *
          v ^ (-(g.alpha + 1)) * exp (-(1 / g.beta / v))) =
        ((1 / g.beta) ^ g.alpha / Gamma g.alpha) *
          ((v * v ^ (-(g.alpha + 1))) * exp (-(1 / g.beta / v))) by ring, e2]
    rw [setIntegral_congr_fun measurableSet_Ioi hcong, MeasureTheory.integral_mul_left,
      integral_inv_gamma (show (0 : ℝ) < g.alpha - 1 by linarith)
        (show (0 : ℝ) < 1 / g.beta by positivity)]
    have hG : Gamma g.alpha = (g.alpha - 1) * Gamma (g.alpha - 1) := by
      have h := Real.Gamma_add_one (show g.alpha - 1 ≠ 0 from ne_of_gt (by linarith))
      rw [show g.alpha - 1 + 1 = g.alpha by ring] at h
      exact h
    have hsplit := Real.rpow_add (show (0 : ℝ) < 1 / g.beta by positivity) (g.alpha - 1) 1
    rw [show g.alpha - 1 + 1 = g.alpha by ring, Real.rpow_one] at hsplit
    have h1 : Gamma (g.alpha - 1) ≠ 0 :=
      ne_of_gt (Real.Gamma_pos_of_pos (by linarith))
    have h2 : (1 / g.beta) ^ (g.alpha - 1) ≠ 0 := by positivity
    have h3 : g.beta ≠ 0 := ne_of_gt hb
    have h4 : g.alpha - 1 ≠ 0 := ne_of_gt (by linarith)
    rw [hG, hsplit]
    field_simp
    ring
  have var_eq : ∀ {g : InvGammaParams} (hg : InvGamma.Valid g) (ha : 2 < g.alpha), ∫ v in Ioi (0 : ℝ),
        (v - 1 / (g.beta * (g.alpha - 1))) ^ 2 * InvGamma.density g v =
      1 / (g.beta ^ 2 * (g.alpha - 1) ^ 2 * (g.alpha - 2)) := by
    intro g hg ha
    obtain ⟨ha0, hb⟩ := hg
    have hc0 : (0 : ℝ) < 1 / g.beta := by positivity
    have hcong : ∀ v ∈ Ioi (0 : ℝ),
        (v - 1 / (g.beta * (g.alpha - 1))) ^ 2 * InvGamma.density g v =
          ((1 / g.beta) ^ g.alpha / Gamma g.alpha) *
              (v ^ (-(g.alpha - 2 + 1)) * exp (-(1 / g.beta / v))) -
            (2 * (1 / (g.beta * (g.alpha - 1))) *
                ((1 / g.beta) ^ g.alpha / Gamma g.alpha)) *
              (v ^ (-(g.alpha - 1 + 1)) * exp (-(1 / g.beta / v))) +
            ((1 / (g.beta * (g.alpha - 1))) ^ 2 *
                ((1 / g.beta) ^ g.alpha / Gamma g.alpha)) *
              (v ^ (-(g.alpha + 1)) * exp (-(1 / g.beta / v))) := by
      intro v hv
      have hv0 : (0 : ℝ) < v := hv
      have e2a : v ^ 2 * v ^ (-(g.alpha + 1)) = v ^ (-(g.alpha - 2 + 1)) := by
        rw [show v ^ 2 = v ^ ((2 : ℕ) : ℝ) from (Real.rpow_natCast v 2).symm,
          ← Real.rpow_add hv0]
        congr 1
        push_cast
        ring
      have e2b : v * v ^ (-(g.alpha + 1)) = v ^ (-(g.alpha - 1 + 1)) := by
        nth_rewrite 1 [show v = v ^ (1 : ℝ) from (Real.rpow_one v).symm]
        rw [← Real.rpow_add hv0]
        congr 1
        ring
      have e3 : exp (-(1 / (g.beta * v))) = exp (-(1 / g.beta / v)) := by
        congr 1
        ring
      delta InvGamma.density
      rw [ e3, show (v - 1 / (g.beta * (g.alpha - 1))) ^ 2 *
          ((1 / g.beta) ^ g.alpha / Gamma g.alpha *
            v ^ (-(g.alpha + 1)) * exp (-(1 / g.beta / v))) =
        ((1 / g.beta) ^ g.alpha / Gamma g.alpha) *
            ((v ^ 2 * v ^ (-(g.alpha + 1))) * exp (-(1 / g.beta / v))) -
          (2 * (1 / (g.beta * (g.alpha - 1))) *
              ((1 / g.beta) ^ g.alpha / Gamma g.alpha)) *
            ((v * v ^ (-(g.alpha + 1))) * exp (-(1 / g.beta / v))) +
          ((1 / (g.beta * (g.alpha - 1))) ^ 2 *
              ((1 / g.beta) ^ g.alpha / Gamma g.alpha)) *
            (v ^ (-(g.alpha + 1)) * exp (-(1 / g.beta / v))) by ring,
        e2a, e2b]
    have i2 : IntegrableOn
        (fun v : ℝ => v ^ (-(g.alpha - 2 + 1)) * exp (-(1 / g.beta / v)))
        (Ioi 0) := integrableOn_inv_gamma (by linarith) hc0
    have i1 : IntegrableOn
        (fun v : ℝ => v ^ (-(g.alpha - 1 + 1)) * exp (-(1 / g.beta / v)))
        (Ioi 0) := integrableOn_inv_gamma (by linarith) hc0
    have i0 : IntegrableOn
        (fun v : ℝ => v ^ (-(g.alpha + 1)) * exp (-(1 / g.beta / v)))
        (Ioi 0) := integrableOn_inv_gamma (by linarith) hc0
    have hA := i2.const_mul ((1 / g.beta) ^ g.alpha / Gamma g.alpha)
    have hB := i1.const_mul (2 * (1 / (g.beta * (g.alpha - 1))) *
      ((1 / g.beta) ^ g.alpha / Gamma g.alpha))
    have hC := i0.const_mul ((1 / (g.beta * (g.alpha - 1))) ^ 2 *
      ((1 / g.beta) ^ g.alpha / Gamma g.alpha))
    have hAB : Integrable (fun x : ℝ =>
        (1 / g.beta) ^ g.alpha / Gamma g.alpha *
            (x ^ (-(g.alpha - 2 + 1)) * exp (-(1 / g.beta / x))) -
          2 * (1 / (g.beta * (g.alpha - 1))) * ((1 / g.beta) ^ g.alpha / Gamma g.alpha) *
            (x ^ (-(g.alpha - 1 + 1)) * exp (-(1 / g.beta / x))))
        (volume.restrict (Ioi 0)) := hA.sub hB
    rw [setIntegral_congr_fun measurableSet_Ioi hcong,
      MeasureTheory.integral_add hAB hC]
    rw [MeasureTheory.integral_sub hA hB,
      MeasureTheory.integral_mul_left, MeasureTheory.integral_mul_left,
      MeasureTheory.integral_mul_left,
      integral_inv_gamma (show (0 : ℝ) < g.alpha - 2 by linarith) hc0,
      integral_inv_gamma (show (0 : ℝ) < g.alpha - 1 by linarith) hc0,
      integral_inv_gamma ha0 hc0]
    have hG1 : Gamma (g.alpha - 1) = (g.alpha - 2) * Gamma (g.alpha - 2) := by
      have h := Real.Gamma_add_one (show g.alpha - 2 ≠ 0 from ne_of_gt (by linarith))
      rw [show g.alpha - 2 + 1 = g.alpha - 1 by ring] at h
      exact h
    have hG : Gamma g.alpha = (g.alpha - 1) * Gamma (g.alpha - 1) := by
      have h := Real.Gamma_add_one (show g.alpha - 1 ≠ 0 from ne_of_gt (by linarith))
      rw [show g.alpha - 1 + 1 = g.alpha by ring] at h
      exact h
    have hs1 := Real.rpow_add hc0 (g.alpha - 2) 1
    rw [show g.alpha - 2 + 1 = g.alpha - 1 by ring, Real.rpow_one] at hs1
    have hs2 := Real.rpow_add hc0 (g.alpha - 1) 1
    rw [show g.alpha - 1 + 1 = g.alpha by ring, Real.rpow_one] at hs2
    have h1 : Gamma (g.alpha - 2) ≠ 0 :=
      ne_of_gt (Real.Gamma_pos_of_pos (by linarith))
    have h2 : (1 / g.beta) ^ (g.alpha - 2) ≠ 0 := by positivity
    have h3 : g.beta ≠ 0 := ne_of_gt hb
    have h4 : g.alpha - 1 ≠ 0 := ne_of_gt (by linarith)
    have h5 : g.alpha - 2 ≠ 0 := ne_of_gt (by linarith)
    rw [hG, hG1, hs2, hs1]
    field_simp
    ring
  refine ⟨fun g hg ha => mean_eq hg ha,
    fun g hg ha => var_eq hg ha, fun g hg ha hb1 => ?_⟩
  rw [mean_eq hg ha]
  intro h
  have hα : g.alpha - 1 ≠ 0 := ne_of_gt (by linarith)
  have hβ0 : g.beta ≠ 0 := ne_of_gt hg.2
  field_simp at h
  have hsq : g.beta ^ 2 = 1 := by nlinarith [h]
  have hfac : (g.beta - 1) * (g.beta + 1) = 0 := by linear_combination hsq
  rcases mul_eq_zero.mp hfac with h5 | h6
  · exact hb1 (by linarith)
  · have := hg.2
    linarith

/-- C9 witness: the mean at a concrete InvGamma instance. -/
theorem claim_C9_invgamma_rate_parameterization_witness :
    ∫ v in Ioi (0 : ℝ), v * InvGamma.density ⟨2, 1, 0⟩ v =
      1 / (1 * (2 - 1)) :=
  claim_C9_invgamma_rate_parameterization.1 ⟨2, 1, 0⟩
    ⟨by norm_num, by norm_num⟩ (by norm_num)

/-- C10: for the scalar variants, `post`, `evidence` and `pred` on a scalar
observation behave exactly as on the one-element sequence. -/
theorem claim_C10_scalar_argument_as_singleton_sequence :
    (∀ (p : NIXParams) (x : ℝ),
      postArg NIX.post p (Obs.scalar x) = postArg NIX.post p (Obs.seq [x]) ∧
      evidenceArg NIX.evidence p (Obs.scalar x) = evidenceArg NIX.evidence p (Obs.seq [x]) ∧
      atleast1d (predArg (NIX.pred p) (Obs.scalar x)) =
        atleast1d (predArg (NIX.pred p) (Obs.seq [x]))) ∧
    (∀ (q : NIGParams) (x : ℝ),
      postArg NIG.post q (Obs.scalar x) = postArg NIG.post q (Obs.seq [x]) ∧
      evidenceArg NIG.evidence q (Obs.scalar x) = evidenceArg NIG.evidence q (Obs.seq [x]) ∧
      atleast1d (predArg (NIG.pred q) (Obs.scalar x)) =
        atleast1d (predArg (NIG.pred q) (Obs.seq [x]))) ∧
    (∀ (g : InvGammaParams) (x : ℝ),
      postArg InvGamma.post g (Obs.scalar x) = postArg InvGamma.post g (Obs.seq [x]) ∧
      evidenceArg InvGamma.evidence g (Obs.scalar x) =
        evidenceArg InvGamma.evidence g (Obs.seq [x]) ∧
      atleast1d (predArg (InvGamma.pred g) (Obs.scalar x)) =
        atleast1d (predArg (InvGamma.pred g) (Obs.seq [x]))) ∧
    (∀ (p : GaussianMeanKnownVarianceParams) (x : ℝ),
      postArg GaussianMeanKnownVariance.post p (Obs.scalar x) =
        postArg GaussianMeanKnownVariance.post p (Obs.seq [x]) ∧
      evidenceArg GaussianMeanKnownVariance.evidence p (Obs.scalar x) =
        evidenceArg GaussianMeanKnownVariance.evidence p (Obs.seq [x]) ∧
      atleast1d (predArg (GaussianMeanKnownVariance.pred p) (Obs.scalar x)) =
        atleast1d (predArg (GaussianMeanKnownVariance.pred p) (Obs.seq [x]))) :=
  ⟨fun _ _ => ⟨rfl, rfl, rfl⟩, fun _ _ => ⟨rfl, rfl, rfl⟩,
   fun _ _ => ⟨rfl, rfl, rfl⟩, fun _ _ => ⟨rfl, rfl, rfl⟩⟩
